import Mathlib

/-!
# Verification of the dynamic-file-scheduler core

Shallow embedding of the repository's schedule engine:

* `src/utils/schedule-calculator.ts` — the next-run calculator
  (`calculateNextRun` and its per-variant helpers), modelled over a civil
  calendar faithful to JavaScript `Date` local-time semantics with a fixed
  UTC offset (the source ignores the stored `timezone` for offset
  conversion, so all arithmetic is in one fixed civil calendar; DST is not
  modelled).
* `src/unnamed/part_001` — the `ScheduleChecker` cron handler (dispatch
  pass and `cleanupOldSchedules` pruning pass) as explicit state passing
  over a list-of-records store.

Conventions of the embedding:

* A JavaScript `Date` is a `JSDate`: a civil date (`CivilDate`, with
  JS-style 0-based months and 1-based days) plus wall-clock time fields.
  `Date` comparisons in the source compare epoch milliseconds; here `ts`
  maps a `JSDate` to milliseconds since 1970-01-01 and comparisons go
  through `ts`.
* Stored ISO-8601 timestamp strings (`nextRun`, `lastRun`, `updatedAt`)
  are modelled by their parsed value, `Option JSDate`; `none` stands for
  an absent field or a string that does not parse (JS `new Date(s)`
  yielding an Invalid Date, whose comparisons are all false).
* The source's `const now = new Date()` clock reads are modelled by an
  explicit `now : JSDate` argument; all reads within one handler
  invocation are identified with the invocation instant.
* The source's unbounded `while` loops that scan for a weekday within a
  month are modelled with fuel `7`, an upper bound on their iteration
  count for any real weekday target.
-/

namespace DFS

/-! ## Civil calendar (JavaScript `Date` semantics, fixed offset) -/

/-- A civil date with JS conventions: `month` is 0–11, `day` is 1-based. -/
structure CivilDate where
  year : Int
  month : Nat
  day : Nat
deriving DecidableEq, Repr

/-- A JavaScript `Date` value: civil date plus wall-clock time fields. -/
structure JSDate where
  date : CivilDate
  hour : Nat
  minute : Nat
  second : Nat
  ms : Nat
deriving DecidableEq, Repr

/-- Gregorian leap year. -/
def isLeap (y : Int) : Bool :=
  y % 4 == 0 && (y % 100 != 0 || y % 400 == 0)

/-- Days in month `m` (0-based) of year `y`. -/
def dim (y : Int) (m : Nat) : Nat :=
  match m with
  | 0 => 31
  | 1 => if isLeap y then 29 else 28
  | 2 => 31
  | 3 => 30
  | 4 => 31
  | 5 => 30
  | 6 => 31
  | 7 => 31
  | 8 => 30
  | 9 => 31
  | 10 => 30
  | _ => 31

/-- A well-formed civil date. -/
def validD (d : CivilDate) : Prop :=
  d.month < 12 ∧ 1 ≤ d.day ∧ d.day ≤ dim d.year d.month

instance (d : CivilDate) : Decidable (validD d) := by
  unfold validD; infer_instance

/-- A well-formed `JSDate`. -/
def validT (d : JSDate) : Prop :=
  validD d.date ∧ d.hour < 24 ∧ d.minute < 60 ∧ d.second < 60 ∧ d.ms < 1000

instance (d : JSDate) : Decidable (validT d) := by
  unfold validT; infer_instance

/-- The calendar successor of a civil date. -/
def nextDay (d : CivilDate) : CivilDate :=
  if d.day < dim d.year d.month then ⟨d.year, d.month, d.day + 1⟩
  else if d.month < 11 then ⟨d.year, d.month + 1, 1⟩
  else ⟨d.year + 1, 0, 1⟩

/-- The calendar predecessor of a civil date. -/
def prevDay (d : CivilDate) : CivilDate :=
  if 1 < d.day then ⟨d.year, d.month, d.day - 1⟩
  else if 0 < d.month then ⟨d.year, d.month - 1, dim d.year (d.month - 1)⟩
  else ⟨d.year - 1, 11, 31⟩

/-- Advance a civil date by `k` days. -/
def addDays : Nat → CivilDate → CivilDate
  | 0, d => d
  | k + 1, d => nextDay (addDays k d)

/-- Move a civil date back by `k` days. -/
def subDays : Nat → CivilDate → CivilDate
  | 0, d => d
  | k + 1, d => prevDay (subDays k d)

/-- Days since civil 1970-01-01 (proleptic Gregorian), the day-number part
of the JS epoch representation. -/
def dfc (d : CivilDate) : Int :=
  let y2 : Int := if d.month ≤ 1 then d.year - 1 else d.year
  let mp : Nat := (d.month + 10) % 12
  365 * y2 + y2 / 4 - y2 / 100 + y2 / 400 + ((153 * mp + 2) / 5 : Nat) + (d.day : Int) - 1 - 719468

/-- JS `Date.prototype.getDay`: weekday, 0 = Sunday … 6 = Saturday. -/
def getDay (d : CivilDate) : Nat :=
  ((dfc d + 4) % 7).toNat

/-- JS `setDate(v)` semantics on the date part: day `v` of the current
month, under- and overflowing into neighbouring months. -/
def setDateOnly (d : CivilDate) (v : Int) : CivilDate :=
  if 1 ≤ v then addDays (v - 1).toNat ⟨d.year, d.month, 1⟩
  else subDays (1 - v).toNat ⟨d.year, d.month, 1⟩

/-- JS `new Date(y, m, v)` (date part): month overflow rolls into the
year, then the day is resolved as in `setDate`. -/
def mkCivil (y : Int) (m : Int) (v : Int) : CivilDate :=
  setDateOnly ⟨y + m / 12, (m % 12).toNat, 1⟩ v

/-- JS `d.setHours(h, mi, 0, 0)` as used by the calculator. -/
def JSDate.setHours (d : JSDate) (h mi : Nat) : JSDate :=
  ⟨d.date, h, mi, 0, 0⟩

/-- JS `d.setDate(v)`. -/
def JSDate.setDate (d : JSDate) (v : Int) : JSDate :=
  ⟨setDateOnly d.date v, d.hour, d.minute, d.second, d.ms⟩

/-- Epoch milliseconds of a `JSDate` (`Date.prototype.getTime`); `Date`
comparisons in the source compare this value. -/
def ts (d : JSDate) : Int :=
  dfc d.date * 86400000 + (d.hour : Int) * 3600000 + (d.minute : Int) * 60000
    + (d.second : Int) * 1000 + (d.ms : Int)

/-! ## Calendar lemmas -/

theorem dim_pos (y : Int) (m : Nat) : 1 ≤ dim y m := by
  unfold dim
  rcases m with _ | _ | _ | _ | _ | _ | _ | _ | _ | _ | _ | m <;> simp <;> split <;> omega

theorem dim_ge_28 (y : Int) (m : Nat) : 28 ≤ dim y m := by
  unfold dim
  rcases m with _ | _ | _ | _ | _ | _ | _ | _ | _ | _ | _ | m <;> simp <;> split <;> omega

theorem dim_le_31 (y : Int) (m : Nat) : dim y m ≤ 31 := by
  unfold dim
  rcases m with _ | _ | _ | _ | _ | _ | _ | _ | _ | _ | _ | m <;> simp <;> split <;> omega

theorem validD_mk (y : Int) (m day : Nat) :
    validD ⟨y, m, day⟩ ↔ m < 12 ∧ 1 ≤ day ∧ day ≤ dim y m := Iff.rfl

theorem nextDay_mk (y : Int) (m day : Nat) :
    nextDay ⟨y, m, day⟩ =
      if day < dim y m then ⟨y, m, day + 1⟩
      else if m < 11 then ⟨y, m + 1, 1⟩ else ⟨y + 1, 0, 1⟩ := rfl

theorem prevDay_mk (y : Int) (m day : Nat) :
    prevDay ⟨y, m, day⟩ =
      if 1 < day then ⟨y, m, day - 1⟩
      else if 0 < m then ⟨y, m - 1, dim y (m - 1)⟩ else ⟨y - 1, 11, 31⟩ := rfl

theorem dfc_mk (y : Int) (m day : Nat) :
    dfc ⟨y, m, day⟩ =
      365 * (if m ≤ 1 then y - 1 else y) + (if m ≤ 1 then y - 1 else y) / 4
        - (if m ≤ 1 then y - 1 else y) / 100 + (if m ≤ 1 then y - 1 else y) / 400
        + ((153 * ((m + 10) % 12) + 2) / 5 : Nat) + (day : Int) - 1 - 719468 := rfl

theorem nextDay_valid {d : CivilDate} (h : validD d) : validD (nextDay d) := by
  rcases d with ⟨y, m, day⟩
  rw [validD_mk] at h
  rw [nextDay_mk]
  split_ifs with h1 h2
  · rw [validD_mk]; omega
  · rw [validD_mk]
    exact ⟨by omega, by omega, dim_pos _ _⟩
  · rw [validD_mk]
    exact ⟨by omega, by omega, dim_pos _ _⟩

theorem prevDay_valid {d : CivilDate} (h : validD d) : validD (prevDay d) := by
  rcases d with ⟨y, m, day⟩
  rw [validD_mk] at h
  rw [prevDay_mk]
  split_ifs with h1 h2
  · rw [validD_mk]; omega
  · rw [validD_mk]
    exact ⟨by omega, dim_pos _ _, le_refl _⟩
  · rw [validD_mk]
    refine ⟨by omega, by omega, ?_⟩
    simp [dim]

theorem addDays_valid {d : CivilDate} (k : Nat) (h : validD d) : validD (addDays k d) := by
  induction k with
  | zero => exact h
  | succ k ih => exact nextDay_valid ih

theorem subDays_valid {d : CivilDate} (k : Nat) (h : validD d) : validD (subDays k d) := by
  induction k with
  | zero => exact h
  | succ k ih => exact prevDay_valid ih

/-- `dfc` is linear in the day-of-month field. -/
theorem dfc_day (y : Int) (m : Nat) (a b : Nat) :
    dfc ⟨y, m, a⟩ = dfc ⟨y, m, b⟩ + (a : Int) - (b : Int) := by
  rw [dfc_mk, dfc_mk]
  omega

/-- Key calendar fact: the day number of the calendar successor is one more. -/
theorem dfc_nextDay {d : CivilDate} (h : validD d) : dfc (nextDay d) = dfc d + 1 := by
  rcases d with ⟨y, m, day⟩
  rw [validD_mk] at h
  rw [nextDay_mk]
  by_cases hlt : day < dim y m
  · rw [if_pos hlt, dfc_mk, dfc_mk]
    omega
  · rw [if_neg hlt]
    have hday : day = dim y m := by omega
    have hm : m < 12 := h.1
    clear h hlt
    subst hday
    interval_cases m <;>
    · norm_num [dim]
      rw [dfc_mk, dfc_mk]
      split_ifs <;>
        (try simp only [isLeap, Bool.and_eq_true, Bool.or_eq_true, beq_iff_eq, bne_iff_ne,
          ne_eq, decide_eq_true_eq, not_and, not_or, not_not] at *) <;>
        omega

theorem nextDay_prevDay {d : CivilDate} (h : validD d) : nextDay (prevDay d) = d := by
  rcases d with ⟨y, m, day⟩
  rw [validD_mk] at h
  rw [prevDay_mk]
  by_cases h1 : 1 < day
  · rw [if_pos h1, nextDay_mk]
    rw [if_pos (show day - 1 < dim y m by omega)]
    simp only [CivilDate.mk.injEq]
    exact ⟨trivial, trivial, by omega⟩
  · have hday : day = 1 := by omega
    subst hday
    rw [if_neg h1]
    by_cases h0 : 0 < m
    · rw [if_pos h0, nextDay_mk]
      rw [if_neg (show ¬ dim y (m - 1) < dim y (m - 1) by omega),
        if_pos (show m - 1 < 11 by omega)]
      simp only [CivilDate.mk.injEq]
      exact ⟨trivial, by omega, trivial⟩
    · have hm0 : m = 0 := by omega
      subst hm0
      rw [if_neg h0, nextDay_mk]
      rw [if_neg (show ¬ (31 : Nat) < dim (y - 1) 11 by simp [dim]), if_neg (by omega)]
      simp only [CivilDate.mk.injEq]
      exact ⟨by omega, trivial, trivial⟩

theorem dfc_prevDay {d : CivilDate} (h : validD d) : dfc (prevDay d) = dfc d - 1 := by
  have h1 := dfc_nextDay (prevDay_valid h)
  rw [nextDay_prevDay h] at h1
  omega

theorem dfc_addDays {d : CivilDate} (k : Nat) (h : validD d) :
    dfc (addDays k d) = dfc d + (k : Int) := by
  induction k with
  | zero => simp [addDays]
  | succ k ih =>
      show dfc (nextDay (addDays k d)) = _
      rw [dfc_nextDay (addDays_valid k h), ih]
      push_cast
      ring

theorem dfc_subDays {d : CivilDate} (k : Nat) (h : validD d) :
    dfc (subDays k d) = dfc d - (k : Int) := by
  induction k with
  | zero => simp [subDays]
  | succ k ih =>
      show dfc (prevDay (subDays k d)) = _
      rw [dfc_prevDay (subDays_valid k h), ih]
      push_cast
      ring

theorem getDay_lt (d : CivilDate) : getDay d < 7 := by
  unfold getDay
  omega

theorem getDay_eq_iff (d : CivilDate) (t : Nat) :
    getDay d = t ↔ (dfc d + 4) % 7 = (t : Int) := by
  unfold getDay
  omega

theorem getDay_addDays {d : CivilDate} (k : Nat) (h : validD d) :
    getDay (addDays k d) = (getDay d + k) % 7 := by
  have h1 := dfc_addDays k h
  unfold getDay
  omega

theorem getDay_subDays {d : CivilDate} (k : Nat) (h : validD d) :
    getDay (subDays k d) = (getDay d + 7 * k - k) % 7 := by
  have h1 := dfc_subDays k h
  unfold getDay
  omega

/-! ## `setDate` / `new Date(y, m, d)` lemmas -/

theorem firstOfMonth_valid {y : Int} {m : Nat} (hm : m < 12) : validD ⟨y, m, 1⟩ :=
  ⟨hm, le_refl 1, dim_pos y m⟩

theorem addDays_add (a b : Nat) (d : CivilDate) :
    addDays (a + b) d = addDays a (addDays b d) := by
  induction a with
  | zero => simp [addDays]
  | succ a ih =>
      rw [show a + 1 + b = (a + b) + 1 by omega]
      show nextDay _ = nextDay _
      rw [ih]

theorem addDays_firstOfMonth (y : Int) (m : Nat) (k : Nat) (hm : m < 12)
    (hk : k < dim y m) : addDays k ⟨y, m, 1⟩ = ⟨y, m, 1 + k⟩ := by
  induction k with
  | zero => rfl
  | succ k ih =>
      show nextDay (addDays k ⟨y, m, 1⟩) = _
      rw [ih (by omega), nextDay_mk, if_pos (by omega)]
      simp only [CivilDate.mk.injEq]
      exact ⟨trivial, trivial, by omega⟩

theorem eq_addDays_first {d : CivilDate} (h : validD d) :
    addDays (d.day - 1) ⟨d.year, d.month, 1⟩ = d := by
  rcases d with ⟨y, m, day⟩
  dsimp only
  rw [validD_mk] at h
  obtain ⟨hm, hd1, hd2⟩ := h
  rw [addDays_firstOfMonth y m (day - 1) hm (by omega)]
  simp only [CivilDate.mk.injEq]
  exact ⟨trivial, trivial, by omega⟩

theorem setDateOnly_valid {d : CivilDate} (hm : d.month < 12) (v : Int) :
    validD (setDateOnly d v) := by
  unfold setDateOnly
  split
  · exact addDays_valid _ (firstOfMonth_valid hm)
  · exact subDays_valid _ (firstOfMonth_valid hm)

theorem dfc_setDateOnly {d : CivilDate} (hm : d.month < 12) (v : Int) :
    dfc (setDateOnly d v) = dfc ⟨d.year, d.month, 1⟩ + v - 1 := by
  unfold setDateOnly
  split
  · rw [dfc_addDays _ (firstOfMonth_valid hm)]
    omega
  · rw [dfc_subDays _ (firstOfMonth_valid hm)]
    omega

theorem setDateOnly_add {d : CivilDate} (h : validD d) (k : Nat) :
    setDateOnly d ((d.day : Int) + (k : Int)) = addDays k d := by
  obtain ⟨hm, hd1, hd2⟩ := h
  unfold setDateOnly
  rw [if_pos (by omega)]
  have hn : ((d.day : Int) + (k : Int) - 1).toNat = k + (d.day - 1) := by omega
  rw [hn, addDays_add, eq_addDays_first ⟨hm, hd1, hd2⟩]

theorem setDateOnly_self {d : CivilDate} (h : validD d) : setDateOnly d (d.day : Int) = d := by
  have h0 := setDateOnly_add h 0
  simpa using h0

theorem setDateOnly_succ {d : CivilDate} (h : validD d) :
    setDateOnly d ((d.day : Int) + 1) = nextDay d := by
  have h1 := setDateOnly_add h 1
  simpa [addDays] using h1

theorem setDateOnly_pred {d : CivilDate} (h : validD d) :
    setDateOnly d ((d.day : Int) - 1) = prevDay d := by
  rcases d with ⟨y, m, day⟩
  dsimp only
  rw [validD_mk] at h
  obtain ⟨hm, hd1, hd2⟩ := h
  by_cases h2 : 2 ≤ day
  · unfold setDateOnly
    rw [if_pos (by omega)]
    have hn : ((day : Int) - 1 - 1).toNat = day - 2 := by omega
    rw [hn]
    rw [addDays_firstOfMonth y m (day - 2) hm (by omega)]
    rw [prevDay_mk]
    rw [if_pos (show 1 < day by omega)]
    simp only [CivilDate.mk.injEq]
    exact ⟨trivial, trivial, by omega⟩
  · have hd : day = 1 := by omega
    subst hd
    unfold setDateOnly
    rw [if_neg (by omega)]
    rw [prevDay_mk, if_neg (by omega)]
    rfl

theorem mkCivil_one (y : Int) (mi : Int) :
    mkCivil y mi 1 = ⟨y + mi / 12, (mi % 12).toNat, 1⟩ := by
  unfold mkCivil setDateOnly
  rw [if_pos (by omega)]
  rfl

theorem mkCivil_zero (y : Int) (mi : Int) :
    mkCivil y mi 0 = prevDay ⟨y + mi / 12, (mi % 12).toNat, 1⟩ := by
  unfold mkCivil setDateOnly
  rw [if_neg (by omega)]
  rfl

theorem emod_twelve_lt (mi : Int) : (mi % 12).toNat < 12 := by omega

/-- `new Date(y, mi + 1, 1)` is the calendar successor of the last day of the
month that `new Date(y, mi, 1)` falls in. -/
theorem mkCivil_one_succ (y : Int) (mi : Int) :
    mkCivil y (mi + 1) 1 =
      nextDay ⟨y + mi / 12, (mi % 12).toNat, dim (y + mi / 12) (mi % 12).toNat⟩ := by
  rw [mkCivil_one, nextDay_mk, if_neg (by omega)]
  by_cases h : (mi % 12).toNat < 11
  · rw [if_pos h]
    simp only [CivilDate.mk.injEq]
    refine ⟨by omega, by omega, trivial⟩
  · rw [if_neg h]
    simp only [CivilDate.mk.injEq]
    refine ⟨by omega, by omega, trivial⟩

/-- `new Date(y, mi + 1, 0)` is the last day of the month that
`new Date(y, mi, 1)` falls in. -/
theorem mkCivil_zero_succ (y : Int) (mi : Int) :
    mkCivil y (mi + 1) 0 =
      ⟨y + mi / 12, (mi % 12).toNat, dim (y + mi / 12) (mi % 12).toNat⟩ := by
  rw [mkCivil_zero]
  by_cases h : 0 < ((mi + 1) % 12).toNat
  · rw [prevDay_mk, if_neg (by omega), if_pos h]
    simp only [CivilDate.mk.injEq]
    refine ⟨by omega, by omega, ?_⟩
    congr 1 <;> omega
  · rw [prevDay_mk, if_neg (by omega), if_neg h]
    simp only [CivilDate.mk.injEq]
    refine ⟨by omega, by omega, ?_⟩
    have h11 : (mi % 12).toNat = 11 := by omega
    rw [h11]
    simp [dim]

/-! ## Epoch-milliseconds ordering -/

theorem ts_mk (d : CivilDate) (h mi s ms : Nat) :
    ts ⟨d, h, mi, s, ms⟩ =
      dfc d * 86400000 + (h : Int) * 3600000 + (mi : Int) * 60000
        + (s : Int) * 1000 + (ms : Int) := rfl

/-- If `a`'s calendar date is strictly earlier, `a`'s instant is strictly
earlier, whatever the time fields (given `a`'s are in range). -/
theorem ts_lt_of_dfc_lt {a b : JSDate} (hh : a.hour < 24) (hm : a.minute < 60)
    (hs : a.second < 60) (hms : a.ms < 1000) (hd : dfc a.date < dfc b.date) :
    ts a < ts b := by
  unfold ts
  omega

/-! ## The source's weekday scan loops (fuel-bounded) -/

/-- `while (nextRun.getDay() !== targetDay) nextRun.setDate(nextRun.getDate() + 1)`
from `calculateMonthlyFirstWeekdayNextRun`; fuel `7` bounds the loop, which
terminates within 6 steps for any real weekday target. -/
def scanForward : Nat → CivilDate → Int → CivilDate
  | 0, d, _ => d
  | fuel + 1, d, targetDay =>
      if (getDay d : Int) = targetDay then d
      else scanForward fuel (setDateOnly d ((d.day : Int) + 1)) targetDay

/-- `while (nextRun.getDay() !== targetDay) nextRun.setDate(nextRun.getDate() - 1)`
from `calculateMonthlyLastWeekdayNextRun`. -/
def scanBackward : Nat → CivilDate → Int → CivilDate
  | 0, d, _ => d
  | fuel + 1, d, targetDay =>
      if (getDay d : Int) = targetDay then d
      else scanBackward fuel (setDateOnly d ((d.day : Int) - 1)) targetDay

theorem addDays_one (d : CivilDate) : addDays 1 d = nextDay d := rfl

theorem subDays_one (d : CivilDate) : subDays 1 d = prevDay d := rfl

theorem scanForward_exact :
    ∀ (j fuel : Nat) (d : CivilDate) (t : Int), validD d → j ≤ fuel →
      (getDay (addDays j d) : Int) = t →
      (∀ i, i < j → (getDay (addDays i d) : Int) ≠ t) →
      scanForward fuel d t = addDays j d := by
  intro j
  induction j with
  | zero =>
      intro fuel d t _ _ hhit _
      cases fuel with
      | zero => rfl
      | succ f =>
          show (if (getDay d : Int) = t then d else _) = _
          rw [if_pos (show (getDay d : Int) = t from hhit)]
          rfl
  | succ j ih =>
      intro fuel d t hd hle hhit hmin
      obtain ⟨f, rfl⟩ : ∃ f, fuel = f + 1 := ⟨fuel - 1, by omega⟩
      show (if (getDay d : Int) = t then d else scanForward f (setDateOnly d _) t) = _
      rw [if_neg (by simpa using hmin 0 (by omega))]
      rw [setDateOnly_succ hd]
      have hco : ∀ i : Nat, addDays i (nextDay d) = addDays (i + 1) d := by
        intro i
        rw [addDays_add i 1 d, addDays_one]
      rw [ih f (nextDay d) t (nextDay_valid hd) (by omega)
        (by rw [hco]; exact hhit)
        (by intro i hi; rw [hco]; exact hmin (i + 1) (by omega)), hco]

theorem scanBackward_exact :
    ∀ (j fuel : Nat) (d : CivilDate) (t : Int), validD d → j ≤ fuel →
      (getDay (subDays j d) : Int) = t →
      (∀ i, i < j → (getDay (subDays i d) : Int) ≠ t) →
      scanBackward fuel d t = subDays j d := by
  intro j
  induction j with
  | zero =>
      intro fuel d t _ _ hhit _
      cases fuel with
      | zero => rfl
      | succ f =>
          show (if (getDay d : Int) = t then d else _) = _
          rw [if_pos (show (getDay d : Int) = t from hhit)]
          rfl
  | succ j ih =>
      intro fuel d t hd hle hhit hmin
      obtain ⟨f, rfl⟩ : ∃ f, fuel = f + 1 := ⟨fuel - 1, by omega⟩
      show (if (getDay d : Int) = t then d else scanBackward f (setDateOnly d _) t) = _
      rw [if_neg (by simpa using hmin 0 (by omega))]
      rw [setDateOnly_pred hd]
      have hco : ∀ i : Nat, subDays i (prevDay d) = subDays (i + 1) d := by
        intro i
        induction i with
        | zero => rfl
        | succ i ihh => show prevDay _ = prevDay _; rw [ihh]
      rw [ih f (prevDay d) t (prevDay_valid hd) (by omega)
        (by rw [hco]; exact hhit)
        (by intro i hi; rw [hco]; exact hmin (i + 1) (by omega)), hco]

/-- For a real weekday target, the forward scan finds, within 6 steps, the
first date on or after `d` whose weekday is `t`. -/
theorem scanForward_spec {d : CivilDate} {t : Int} (hd : validD d)
    (ht0 : 0 ≤ t) (ht : t < 7) :
    ∃ j : Nat, j ≤ 6 ∧ scanForward 7 d t = addDays j d ∧
      (getDay (addDays j d) : Int) = t := by
  have hg := getDay_lt d
  refine ⟨((t - (getDay d : Int)) % 7).toNat, by omega, ?_, ?_⟩
  · apply scanForward_exact _ 7 d t hd (by omega)
    · rw [getDay_addDays _ hd]
      omega
    · intro i hlt
      rw [getDay_addDays _ hd]
      omega
  · rw [getDay_addDays _ hd]
    omega

/-- For a real weekday target, the backward scan finds, within 6 steps, the
last date on or before `d` whose weekday is `t`. -/
theorem scanBackward_spec {d : CivilDate} {t : Int} (hd : validD d)
    (ht0 : 0 ≤ t) (ht : t < 7) :
    ∃ j : Nat, j ≤ 6 ∧ scanBackward 7 d t = subDays j d ∧
      (getDay (subDays j d) : Int) = t := by
  have hg := getDay_lt d
  refine ⟨(((getDay d : Int) - t) % 7).toNat, by omega, ?_, ?_⟩
  · apply scanBackward_exact _ 7 d t hd (by omega)
    · rw [getDay_subDays _ hd]
      omega
    · intro i hlt
      rw [getDay_subDays _ hd]
      omega
  · rw [getDay_subDays _ hd]
    omega

/-! ## String helpers used by the source

The calculator receives `config.time` as an `"HH:MM"` string and
`config.dayOfWeek` as a weekday name.  The helpers below model the JS
operations `split(":")`, `Number(...)`, `toLowerCase()` and
`Array.prototype.indexOf` for the ASCII inputs the creation endpoint's
schema admits (JS `Number` quirks on non-numeric fragments — `NaN`
propagation into an Invalid Date — are outside the valid-config
hypotheses under which the calculator theorems are stated). -/

/-- ASCII lower-casing of one character (JS `toLowerCase` on ASCII). -/
def lowerChar (c : Char) : Char :=
  if 'A' ≤ c && c ≤ 'Z' then Char.ofNat (c.toNat + 32) else c

/-- ASCII `toLowerCase`. -/
def lowerStr (s : String) : String :=
  ⟨s.data.map lowerChar⟩

/-- JS `String.prototype.split(sep)` on a character list. -/
def splitChar (sep : Char) : List Char → List (List Char)
  | [] => [[]]
  | c :: rest =>
      let r := splitChar sep rest
      if c = sep then [] :: r
      else
        match r with
        | [] => [[c]]
        | g :: gs => (c :: g) :: gs

/-- JS `Number(...)` on a digit string (`none` models `NaN`). -/
def digitsToNat : List Char → Option Nat
  | [] => none
  | l =>
      if l.all Char.isDigit then
        some (l.foldl (fun a c => a * 10 + (c.toNat - 48)) 0)
      else none

/-- `time.split(":").map(Number)` destructured as `[hours, minutes]`;
non-numeric fragments are collapsed to `0` (the valid-config hypotheses
require genuine digits). -/
def parseTime (time : String) : Nat × Nat :=
  match splitChar ':' time.data with
  | h :: m :: _ => ((digitsToNat h).getD 0, (digitsToNat m).getD 0)
  | _ => (0, 0)

/-- JS `a || dflt` for an optional string field: `undefined` and the empty
string are falsy. -/
def orDefault (s : Option String) (dflt : String) : String :=
  match s with
  | none => dflt
  | some v => if v = "" then dflt else v

/-- The `daysOfWeek` array of the source (0 = Sunday … 6 = Saturday). -/
def daysOfWeek : List String :=
  ["sunday", "monday", "tuesday", "wednesday", "thursday", "friday", "saturday"]

/-- `daysOfWeek.indexOf(dayOfWeek.toLowerCase())`: index, or `-1` if absent. -/
def dayIndex (s : String) : Int :=
  match daysOfWeek.findIdx? (fun d => d == lowerStr s) with
  | some i => (i : Int)
  | none => -1

/-! ## Schedule configuration (`FileSchedule["config"]`) -/

/-- The `config` object of a schedule (all fields optional, as in the
creation endpoint's schema). -/
structure ScheduleConfig where
  dayOfWeek : Option String
  time : Option String
  cronExpression : Option String
  weekOfMonth : Option String
deriving DecidableEq, Repr

/-! ## The next-run calculator (`src/utils/schedule-calculator.ts`)

Each function takes the reference instant `now` explicitly: it models the
value of `const now = new Date()` read at the entry of the source's
`calculateNextRun`. -/

/-- `calculateDailyNextRun`. -/
def calculateDailyNextRun (now : JSDate) (time : String) : JSDate :=
  let hm := parseTime time
  let nextRun := now.setHours hm.1 hm.2
  -- if the time has already passed today, schedule for tomorrow
  if ts nextRun ≤ ts now then nextRun.setDate ((nextRun.date.day : Int) + 1)
  else nextRun

/-- `calculateWeeklyNextRun`.  The source mutates a copy `nextRun` of
`now`; each branch below is the final value of that copy after the two
trailing statements `nextRun.setDate(now.getDate() + daysUntilTarget);
nextRun.setHours(...)`. -/
def calculateWeeklyNextRun (now : JSDate) (dayOfWeek : String) (time : String) : JSDate :=
  let targetDay := dayIndex dayOfWeek
  let currentDay : Int := (getDay now.date : Int)
  let hm := parseTime time
  let daysUntilTarget := targetDay - currentDay
  if daysUntilTarget < 0 then
    (now.setDate ((now.date.day : Int) + (daysUntilTarget + 7))).setHours hm.1 hm.2
  else if daysUntilTarget = 0 then
    -- it is the target day: check whether the time has passed
    (if ts (now.setHours hm.1 hm.2) ≤ ts now then
      (now.setDate ((now.date.day : Int) + 7)).setHours hm.1 hm.2
    else
      (now.setDate ((now.date.day : Int) + 0)).setHours hm.1 hm.2)
  else
    (now.setDate ((now.date.day : Int) + daysUntilTarget)).setHours hm.1 hm.2

/-- `calculateMonthlyFirstWeekdayNextRun`. -/
def calculateMonthlyFirstWeekdayNextRun (now : JSDate) (dayOfWeek : String)
    (time : String) : JSDate :=
  let targetDay := dayIndex dayOfWeek
  let hm := parseTime time
  -- start with the first day of the current month, scan for the target day
  let d1 := scanForward 7 (mkCivil now.date.year (now.date.month : Int) 1) targetDay
  let nextRun : JSDate := JSDate.setHours ⟨d1, 0, 0, 0, 0⟩ hm.1 hm.2
  -- if this date has already passed, move to next month
  if ts nextRun ≤ ts now then
    let d2 := scanForward 7 (mkCivil now.date.year ((now.date.month : Int) + 1) 1) targetDay
    JSDate.setHours ⟨d2, 0, 0, 0, 0⟩ hm.1 hm.2
  else nextRun

/-- `calculateMonthlyLastWeekdayNextRun`. -/
def calculateMonthlyLastWeekdayNextRun (now : JSDate) (dayOfWeek : String)
    (time : String) : JSDate :=
  let targetDay := dayIndex dayOfWeek
  let hm := parseTime time
  -- start with the last day of the current month, scan backwards
  let d1 := scanBackward 7 (mkCivil now.date.year ((now.date.month : Int) + 1) 0) targetDay
  let nextRun : JSDate := JSDate.setHours ⟨d1, 0, 0, 0, 0⟩ hm.1 hm.2
  -- if this date has already passed, move to next month
  if ts nextRun ≤ ts now then
    let d2 := scanBackward 7 (mkCivil now.date.year ((now.date.month : Int) + 2) 0) targetDay
    JSDate.setHours ⟨d2, 0, 0, 0, 0⟩ hm.1 hm.2
  else nextRun

/-- `calculateNextRun` of `src/utils/schedule-calculator.ts`.  The
`timezone` argument is accepted but, as in the source, not applied to any
offset conversion.  The `default` branch's `throw` is modelled as
`Except.error`. -/
def calculateNextRun (scheduleType : String) (config : ScheduleConfig)
    (timezone : String) (now : JSDate) : Except String JSDate :=
  match scheduleType with
  | "daily" =>
      .ok (calculateDailyNextRun now (orDefault config.time "09:00"))
  | "weekly" =>
      .ok (calculateWeeklyNextRun now (orDefault config.dayOfWeek "monday")
        (orDefault config.time "09:00"))
  | "monthly-first-weekday" =>
      .ok (calculateMonthlyFirstWeekdayNextRun now (orDefault config.dayOfWeek "monday")
        (orDefault config.time "09:00"))
  | "monthly-last-weekday" =>
      .ok (calculateMonthlyLastWeekdayNextRun now (orDefault config.dayOfWeek "monday")
        (orDefault config.time "09:00"))
  | "custom" =>
      -- the source's placeholder: defaults to the daily computation
      .ok (calculateDailyNextRun now (orDefault config.time "09:00"))
  | _ => .error ("Unsupported schedule type: " ++ scheduleType)

/-- The five supported schedule type tags. -/
def scheduleTypes : List String :=
  ["daily", "weekly", "monthly-first-weekday", "monthly-last-weekday", "custom"]

/-! ## Validity of configurations -/

/-- The effective `"HH:MM"` string parses to a real time of day. -/
def validTimeStr (time : String) : Prop :=
  (parseTime time).1 < 24 ∧ (parseTime time).2 < 60

/-- The effective weekday name is one of the seven real names. -/
def validDayStr (s : String) : Prop :=
  0 ≤ dayIndex s ∧ dayIndex s < 7

/-- A config is valid when its effective time and weekday (after the
source's `|| "09:00"` / `|| "monday"` defaults) are well-formed. -/
def validConfig (c : ScheduleConfig) : Prop :=
  validTimeStr (orDefault c.time "09:00") ∧ validDayStr (orDefault c.dayOfWeek "monday")

instance (c : ScheduleConfig) : Decidable (validConfig c) := by
  unfold validConfig validTimeStr validDayStr
  infer_instance

/-! ## Calculator correctness lemmas -/

theorem setHours_def (d : JSDate) (h mi : Nat) :
    d.setHours h mi = ⟨d.date, h, mi, 0, 0⟩ := rfl

theorem setDate_def (d : JSDate) (v : Int) :
    d.setDate v = ⟨setDateOnly d.date v, d.hour, d.minute, d.second, d.ms⟩ := rfl

theorem ts_date_mk (c : CivilDate) (h mi s ms : Nat) :
    (⟨c, h, mi, s, ms⟩ : JSDate).date = c := rfl

/-- Time-of-day of a valid instant is under one day of milliseconds. -/
theorem ts_sub_tsDate {d : JSDate} (hh : d.hour < 24) (hm : d.minute < 60)
    (hs : d.second < 60) (hms : d.ms < 1000) :
    dfc d.date * 86400000 ≤ ts d ∧ ts d < dfc d.date * 86400000 + 86400000 := by
  unfold ts
  omega

/-- Daily, slot already passed: the result is tomorrow at the parsed time. -/
theorem calculateDailyNextRun_roll {now : JSDate} (hv : validT now) (time : String)
    (hle : ts (now.setHours (parseTime time).1 (parseTime time).2) ≤ ts now) :
    calculateDailyNextRun now time =
      ⟨nextDay now.date, (parseTime time).1, (parseTime time).2, 0, 0⟩ := by
  simp only [calculateDailyNextRun]
  rw [if_pos hle]
  rw [setHours_def, setDate_def]
  simp only
  rw [setDateOnly_succ hv.1]

/-- Daily, slot still in the future: the result is that slot. -/
theorem calculateDailyNextRun_keep {now : JSDate} (time : String)
    (hgt : ts now < ts (now.setHours (parseTime time).1 (parseTime time).2)) :
    calculateDailyNextRun now time =
      now.setHours (parseTime time).1 (parseTime time).2 := by
  simp only [calculateDailyNextRun]
  rw [if_neg (by omega)]

/-- The daily computation always lands strictly after `now`. -/
theorem calculateDailyNextRun_gt {now : JSDate} (hv : validT now) (time : String) :
    ts now < ts (calculateDailyNextRun now time) := by
  obtain ⟨hd, hh, hm, hs, hms⟩ := hv
  by_cases hle : ts (now.setHours (parseTime time).1 (parseTime time).2) ≤ ts now
  · rw [calculateDailyNextRun_roll ⟨hd, hh, hm, hs, hms⟩ time hle]
    apply ts_lt_of_dfc_lt hh hm hs hms
    rw [ts_date_mk, dfc_nextDay hd]
    omega
  · rw [calculateDailyNextRun_keep time (by omega)]
    omega

/-- The candidate offset, in days, from `now` to the target weekday's slot in
the current seven-day window. -/
def weeklyOffset (dw : String) (now : JSDate) : Nat :=
  ((dayIndex dw - (getDay now.date : Int)) % 7).toNat

/-- Full characterization of `calculateWeeklyNextRun` for a real weekday
name: the result is the slot `weeklyOffset` days ahead, except that a
same-day slot that has already passed moves a full week out. -/
theorem calculateWeeklyNextRun_eq {now : JSDate} (hv : validT now) {dw : String}
    (hdw : 0 ≤ dayIndex dw ∧ dayIndex dw < 7) (time : String) :
    calculateWeeklyNextRun now dw time =
      if weeklyOffset dw now = 0 ∧
          ts (now.setHours (parseTime time).1 (parseTime time).2) ≤ ts now then
        ⟨addDays 7 now.date, (parseTime time).1, (parseTime time).2, 0, 0⟩
      else
        ⟨addDays (weeklyOffset dw now) now.date,
          (parseTime time).1, (parseTime time).2, 0, 0⟩ := by
  have hg := getDay_lt now.date
  simp only [calculateWeeklyNextRun, weeklyOffset]
  by_cases hneg : dayIndex dw - (getDay now.date : Int) < 0
  · rw [if_pos hneg]
    have hk : dayIndex dw - (getDay now.date : Int) + 7 =
        (((dayIndex dw - (getDay now.date : Int)) % 7).toNat : Int) := by omega
    rw [if_neg (by omega)]
    rw [setDate_def, setHours_def]
    simp only
    rw [hk, setDateOnly_add hv.1]
  · by_cases hzero : dayIndex dw - (getDay now.date : Int) = 0
    · rw [if_neg hneg, if_pos hzero]
      have hk0 : ((dayIndex dw - (getDay now.date : Int)) % 7).toNat = 0 := by omega
      by_cases hpass : ts (now.setHours (parseTime time).1 (parseTime time).2) ≤ ts now
      · rw [if_pos hpass, if_pos ⟨hk0, hpass⟩]
        rw [setDate_def, setHours_def]
        simp only
        rw [show (now.date.day : Int) + 7 = (now.date.day : Int) + ((7 : Nat) : Int) from by
          omega, setDateOnly_add hv.1]
      · rw [if_neg hpass, if_neg (by intro hc; exact hpass hc.2)]
        rw [setDate_def, setHours_def]
        simp only
        rw [hk0, show (now.date.day : Int) + 0 = (now.date.day : Int) + ((0 : Nat) : Int) from by
          omega, setDateOnly_add hv.1]
    · rw [if_neg hneg, if_neg hzero]
      rw [if_neg (by omega)]
      rw [setDate_def, setHours_def]
      simp only
      have harg : (now.date.day : Int) + (dayIndex dw - (getDay now.date : Int)) =
          (now.date.day : Int) +
            ((((dayIndex dw - (getDay now.date : Int)) % 7).toNat : Nat) : Int) := by omega
      rw [harg, setDateOnly_add hv.1]

/-- The weekly computation always lands strictly after `now`. -/
theorem calculateWeeklyNextRun_gt {now : JSDate} (hv : validT now) {dw : String}
    (hdw : 0 ≤ dayIndex dw ∧ dayIndex dw < 7) (time : String) :
    ts now < ts (calculateWeeklyNextRun now dw time) := by
  obtain ⟨hd, hh, hm, hs, hms⟩ := hv
  rw [calculateWeeklyNextRun_eq ⟨hd, hh, hm, hs, hms⟩ hdw time]
  split_ifs with hc
  · apply ts_lt_of_dfc_lt hh hm hs hms
    rw [ts_date_mk, dfc_addDays 7 hd]
    omega
  · rcases Nat.eq_zero_or_pos (weeklyOffset dw now) with h0 | hpos
    · rw [h0]
      have hnp : ¬ ts (now.setHours (parseTime time).1 (parseTime time).2) ≤ ts now := by
        intro hle
        exact hc ⟨h0, hle⟩
      rw [setHours_def] at hnp
      rw [show addDays 0 now.date = now.date from rfl]
      omega
    · apply ts_lt_of_dfc_lt hh hm hs hms
      rw [ts_date_mk, dfc_addDays _ hd]
      omega

theorem setHours_mk (c : CivilDate) (a b s ms h mi : Nat) :
    JSDate.setHours ⟨c, a, b, s, ms⟩ h mi = ⟨c, h, mi, 0, 0⟩ := rfl

/-- `new Date(y, m + 1, 1)` for the current (valid) month is the successor
of the current month's last day. -/
theorem mkCivil_next_first {y : Int} {m : Nat} (hm : m < 12) :
    mkCivil y ((m : Int) + 1) 1 = nextDay ⟨y, m, dim y m⟩ := by
  rw [mkCivil_one_succ y (m : Int)]
  have h1 : ((m : Int) % 12).toNat = m := by omega
  have h2 : y + (m : Int) / 12 = y := by omega
  rw [h1, h2]

/-- `new Date(y, m + 1, 0)` for the current (valid) month is the current
month's last day. -/
theorem mkCivil_curr_last {y : Int} {m : Nat} (hm : m < 12) :
    mkCivil y ((m : Int) + 1) 0 = ⟨y, m, dim y m⟩ := by
  rw [mkCivil_zero_succ y (m : Int)]
  have h1 : ((m : Int) % 12).toNat = m := by omega
  have h2 : y + (m : Int) / 12 = y := by omega
  rw [h1, h2]

/-- Monthly-first, candidate in the future: result is the candidate. -/
theorem calculateMonthlyFirstWeekdayNextRun_keep {now : JSDate} (dw time : String)
    (hgt : ts now < ts (⟨scanForward 7 (mkCivil now.date.year (now.date.month : Int) 1)
      (dayIndex dw), (parseTime time).1, (parseTime time).2, 0, 0⟩ : JSDate)) :
    calculateMonthlyFirstWeekdayNextRun now dw time =
      ⟨scanForward 7 (mkCivil now.date.year (now.date.month : Int) 1) (dayIndex dw),
        (parseTime time).1, (parseTime time).2, 0, 0⟩ := by
  simp only [calculateMonthlyFirstWeekdayNextRun, setHours_mk]
  rw [if_neg (by omega)]

/-- Monthly-first, candidate passed: result comes from the next month. -/
theorem calculateMonthlyFirstWeekdayNextRun_roll {now : JSDate} (dw time : String)
    (hle : ts (⟨scanForward 7 (mkCivil now.date.year (now.date.month : Int) 1)
      (dayIndex dw), (parseTime time).1, (parseTime time).2, 0, 0⟩ : JSDate) ≤ ts now) :
    calculateMonthlyFirstWeekdayNextRun now dw time =
      ⟨scanForward 7 (mkCivil now.date.year ((now.date.month : Int) + 1) 1) (dayIndex dw),
        (parseTime time).1, (parseTime time).2, 0, 0⟩ := by
  simp only [calculateMonthlyFirstWeekdayNextRun, setHours_mk]
  rw [if_pos hle]

/-- The monthly-first computation always lands strictly after `now`. -/
theorem calculateMonthlyFirstWeekdayNextRun_gt {now : JSDate} (hv : validT now)
    {dw : String} (hdw : 0 ≤ dayIndex dw ∧ dayIndex dw < 7) (time : String) :
    ts now < ts (calculateMonthlyFirstWeekdayNextRun now dw time) := by
  obtain ⟨hd, hh, hm, hs, hms⟩ := hv
  obtain ⟨hm12, hd1, hd2⟩ : now.date.month < 12 ∧ 1 ≤ now.date.day ∧
      now.date.day ≤ dim now.date.year now.date.month := hd
  by_cases hle : ts (⟨scanForward 7 (mkCivil now.date.year (now.date.month : Int) 1)
      (dayIndex dw), (parseTime time).1, (parseTime time).2, 0, 0⟩ : JSDate) ≤ ts now
  · rw [calculateMonthlyFirstWeekdayNextRun_roll dw time hle]
    have hlastv : validD ⟨now.date.year, now.date.month, dim now.date.year now.date.month⟩ :=
      ⟨hm12, dim_pos _ _, le_refl _⟩
    have hstart := mkCivil_next_first (y := now.date.year) hm12
    have hstartv : validD (mkCivil now.date.year ((now.date.month : Int) + 1) 1) := by
      rw [hstart]; exact nextDay_valid hlastv
    have hstartd : dfc (mkCivil now.date.year ((now.date.month : Int) + 1) 1) =
        dfc ⟨now.date.year, now.date.month, dim now.date.year now.date.month⟩ + 1 := by
      rw [hstart, dfc_nextDay hlastv]
    obtain ⟨j, hj6, hscan, _⟩ := scanForward_spec hstartv hdw.1 hdw.2
    apply ts_lt_of_dfc_lt hh hm hs hms
    rw [ts_date_mk, hscan, dfc_addDays j hstartv, hstartd]
    have hnd2 : dfc now.date = dfc ⟨now.date.year, now.date.month,
        dim now.date.year now.date.month⟩ + (now.date.day : Int) -
        (dim now.date.year now.date.month : Int) :=
      dfc_day now.date.year now.date.month now.date.day (dim now.date.year now.date.month)
    omega
  · rw [calculateMonthlyFirstWeekdayNextRun_keep dw time (by omega)]
    omega

/-- Monthly-last, candidate in the future: result is the candidate. -/
theorem calculateMonthlyLastWeekdayNextRun_keep {now : JSDate} (dw time : String)
    (hgt : ts now < ts (⟨scanBackward 7 (mkCivil now.date.year ((now.date.month : Int) + 1) 0)
      (dayIndex dw), (parseTime time).1, (parseTime time).2, 0, 0⟩ : JSDate)) :
    calculateMonthlyLastWeekdayNextRun now dw time =
      ⟨scanBackward 7 (mkCivil now.date.year ((now.date.month : Int) + 1) 0) (dayIndex dw),
        (parseTime time).1, (parseTime time).2, 0, 0⟩ := by
  simp only [calculateMonthlyLastWeekdayNextRun, setHours_mk]
  rw [if_neg (by omega)]

/-- Monthly-last, candidate passed: result comes from the next month. -/
theorem calculateMonthlyLastWeekdayNextRun_roll {now : JSDate} (dw time : String)
    (hle : ts (⟨scanBackward 7 (mkCivil now.date.year ((now.date.month : Int) + 1) 0)
      (dayIndex dw), (parseTime time).1, (parseTime time).2, 0, 0⟩ : JSDate) ≤ ts now) :
    calculateMonthlyLastWeekdayNextRun now dw time =
      ⟨scanBackward 7 (mkCivil now.date.year ((now.date.month : Int) + 2) 0) (dayIndex dw),
        (parseTime time).1, (parseTime time).2, 0, 0⟩ := by
  simp only [calculateMonthlyLastWeekdayNextRun, setHours_mk]
  rw [if_pos hle]

/-- The monthly-last computation always lands strictly after `now`. -/
theorem calculateMonthlyLastWeekdayNextRun_gt {now : JSDate} (hv : validT now)
    {dw : String} (hdw : 0 ≤ dayIndex dw ∧ dayIndex dw < 7) (time : String) :
    ts now < ts (calculateMonthlyLastWeekdayNextRun now dw time) := by
  obtain ⟨hd, hh, hm, hs, hms⟩ := hv
  obtain ⟨hm12, hd1, hd2⟩ : now.date.month < 12 ∧ 1 ≤ now.date.day ∧
      now.date.day ≤ dim now.date.year now.date.month := hd
  by_cases hle : ts (⟨scanBackward 7 (mkCivil now.date.year ((now.date.month : Int) + 1) 0)
      (dayIndex dw), (parseTime time).1, (parseTime time).2, 0, 0⟩ : JSDate) ≤ ts now
  · rw [calculateMonthlyLastWeekdayNextRun_roll dw time hle]
    have hlastv : validD ⟨now.date.year, now.date.month, dim now.date.year now.date.month⟩ :=
      ⟨hm12, dim_pos _ _, le_refl _⟩
    -- the start of the second scan: the last day of the following month
    have hstart : mkCivil now.date.year ((now.date.month : Int) + 2) 0 =
        ⟨now.date.year + ((now.date.month : Int) + 1) / 12,
          (((now.date.month : Int) + 1) % 12).toNat,
          dim (now.date.year + ((now.date.month : Int) + 1) / 12)
            (((now.date.month : Int) + 1) % 12).toNat⟩ := by
      have h2 : (now.date.month : Int) + 2 = ((now.date.month : Int) + 1) + 1 := by omega
      rw [h2, mkCivil_zero_succ]
    have hstartv : validD (mkCivil now.date.year ((now.date.month : Int) + 2) 0) := by
      rw [hstart, validD_mk]
      exact ⟨by omega, dim_pos _ _, le_refl _⟩
    -- its first-of-month is the successor of the current month's last day
    have hfirstnext : (⟨now.date.year + ((now.date.month : Int) + 1) / 12,
        (((now.date.month : Int) + 1) % 12).toNat, 1⟩ : CivilDate) =
        nextDay ⟨now.date.year, now.date.month, dim now.date.year now.date.month⟩ := by
      rw [← mkCivil_one, mkCivil_next_first hm12]
    have hstartd : dfc (mkCivil now.date.year ((now.date.month : Int) + 2) 0) =
        dfc ⟨now.date.year, now.date.month, dim now.date.year now.date.month⟩ + 1 +
          ((dim (now.date.year + ((now.date.month : Int) + 1) / 12)
            (((now.date.month : Int) + 1) % 12).toNat : Int) - 1) := by
      rw [hstart]
      have hlin := dfc_day (now.date.year + ((now.date.month : Int) + 1) / 12)
        (((now.date.month : Int) + 1) % 12).toNat
        (dim (now.date.year + ((now.date.month : Int) + 1) / 12)
          (((now.date.month : Int) + 1) % 12).toNat) 1
      rw [hlin, hfirstnext, dfc_nextDay hlastv]
      omega
    have hdim28 := dim_ge_28 (now.date.year + ((now.date.month : Int) + 1) / 12)
      (((now.date.month : Int) + 1) % 12).toNat
    obtain ⟨j, hj6, hscan, _⟩ := scanBackward_spec hstartv hdw.1 hdw.2
    apply ts_lt_of_dfc_lt hh hm hs hms
    rw [ts_date_mk, hscan, dfc_subDays j hstartv, hstartd]
    have hnd2 : dfc now.date = dfc ⟨now.date.year, now.date.month,
        dim now.date.year now.date.month⟩ + (now.date.day : Int) -
        (dim now.date.year now.date.month : Int) :=
      dfc_day now.date.year now.date.month now.date.day (dim now.date.year now.date.month)
    omega
  · rw [calculateMonthlyLastWeekdayNextRun_keep dw time (by omega)]
    omega

theorem calculateNextRun_daily (c : ScheduleConfig) (tz : String) (now : JSDate) :
    calculateNextRun "daily" c tz now =
      .ok (calculateDailyNextRun now (orDefault c.time "09:00")) := rfl

theorem calculateNextRun_weekly (c : ScheduleConfig) (tz : String) (now : JSDate) :
    calculateNextRun "weekly" c tz now =
      .ok (calculateWeeklyNextRun now (orDefault c.dayOfWeek "monday")
        (orDefault c.time "09:00")) := rfl

theorem calculateNextRun_mfw (c : ScheduleConfig) (tz : String) (now : JSDate) :
    calculateNextRun "monthly-first-weekday" c tz now =
      .ok (calculateMonthlyFirstWeekdayNextRun now (orDefault c.dayOfWeek "monday")
        (orDefault c.time "09:00")) := rfl

theorem calculateNextRun_mlw (c : ScheduleConfig) (tz : String) (now : JSDate) :
    calculateNextRun "monthly-last-weekday" c tz now =
      .ok (calculateMonthlyLastWeekdayNextRun now (orDefault c.dayOfWeek "monday")
        (orDefault c.time "09:00")) := rfl

theorem calculateNextRun_custom (c : ScheduleConfig) (tz : String) (now : JSDate) :
    calculateNextRun "custom" c tz now =
      .ok (calculateDailyNextRun now (orDefault c.time "09:00")) := rfl

/-- For every supported type with a valid config, the calculator succeeds and
its result is strictly later than `now`. -/
theorem calculateNextRun_ok_gt {st : String} (hst : st ∈ scheduleTypes)
    {c : ScheduleConfig} (hc : validConfig c) (tz : String) {now : JSDate}
    (hv : validT now) :
    ∃ v, calculateNextRun st c tz now = .ok v ∧ ts now < ts v := by
  have hdw : 0 ≤ dayIndex (orDefault c.dayOfWeek "monday") ∧
      dayIndex (orDefault c.dayOfWeek "monday") < 7 := hc.2
  simp only [scheduleTypes, List.mem_cons, List.not_mem_nil, or_false] at hst
  rcases hst with rfl | rfl | rfl | rfl | rfl
  · exact ⟨_, calculateNextRun_daily c tz now, calculateDailyNextRun_gt hv _⟩
  · exact ⟨_, calculateNextRun_weekly c tz now, calculateWeeklyNextRun_gt hv hdw _⟩
  · exact ⟨_, calculateNextRun_mfw c tz now, calculateMonthlyFirstWeekdayNextRun_gt hv hdw _⟩
  · exact ⟨_, calculateNextRun_mlw c tz now, calculateMonthlyLastWeekdayNextRun_gt hv hdw _⟩
  · exact ⟨_, calculateNextRun_custom c tz now, calculateDailyNextRun_gt hv _⟩

/-- The "naive same-day/same-slot target" the spec's §8 property speaks of,
per variant: today (daily/custom), the target weekday's slot in the current
seven-day window (weekly), the first/last matching weekday of the *current*
month (monthly), all at the configured time. -/
def naiveTarget (scheduleType : String) (config : ScheduleConfig) (now : JSDate) : JSDate :=
  let hm := parseTime (orDefault config.time "09:00")
  let t := dayIndex (orDefault config.dayOfWeek "monday")
  match scheduleType with
  | "weekly" =>
      ⟨addDays (weeklyOffset (orDefault config.dayOfWeek "monday") now) now.date,
        hm.1, hm.2, 0, 0⟩
  | "monthly-first-weekday" =>
      ⟨scanForward 7 (mkCivil now.date.year (now.date.month : Int) 1) t, hm.1, hm.2, 0, 0⟩
  | "monthly-last-weekday" =>
      ⟨scanBackward 7 (mkCivil now.date.year ((now.date.month : Int) + 1) 0) t,
        hm.1, hm.2, 0, 0⟩
  | _ => now.setHours hm.1 hm.2

/-! ## The schedule record and the `ScheduleChecker` handler (`src/unnamed/part_001`)

A stored `FileSchedule` record.  `scheduleType` and `status` are kept as
strings: the checker reads records from storage at runtime, where any tag
may occur (the spec's scenario of "an invalid `scheduleType` stored").
Timestamp fields hold the parse of the stored ISO string: `none` models an
absent field or one whose string does not parse (an Invalid `Date`, all of
whose comparisons are false).  The record fields follow the spec's §3 table
(the repository's `src/types` module itself is not among the staged files). -/
structure FileSchedule where
  scheduleId : String
  customerId : String
  customerEmail : String
  scheduleType : String
  nextRun : Option JSDate
  timezone : String
  fileType : String
  format : String
  status : String
  config : ScheduleConfig
  lastRun : Option JSDate
  lastError : Option String
  executionCount : Nat
  createdAt : Option JSDate
  updatedAt : Option JSDate
deriving DecidableEq, Repr

/-- The payload of one `file.generate` trigger event. -/
structure TriggerEvent where
  scheduleId : String
  customerId : String
  customerEmail : String
  fileType : String
  format : String
deriving DecidableEq, Repr

/-- The event the checker emits for a due schedule. -/
def mkEvent (s : FileSchedule) : TriggerEvent :=
  ⟨s.scheduleId, s.customerId, s.customerEmail, s.fileType, s.format⟩

/-- `currentTime >= scheduledTime` where
`scheduledTime = new Date(schedule.nextRun)`: false when the stored string
does not parse (`NaN` comparisons). -/
def isDue (currentTime : JSDate) (s : FileSchedule) : Bool :=
  match s.nextRun with
  | some t => decide (ts t ≤ ts currentTime)
  | none => false

/-- The successful-dispatch record update of the checker's due branch. -/
def dispatchUpdate (currentTime : JSDate) (s : FileSchedule) (nextRun : JSDate) :
    FileSchedule :=
  { s with lastRun := some currentTime, nextRun := some nextRun,
           executionCount := s.executionCount + 1, updatedAt := some currentTime }

/-- The `catch` block of the per-record loop: mark the schedule failed. -/
def quarantine (currentTime : JSDate) (s : FileSchedule) (e : String) : FileSchedule :=
  { s with status := "failed", lastError := some e, updatedAt := some currentTime }

/-- One iteration of the checker's `for` loop over one snapshot record:
the events it emits and the record it writes back (`none` = no write).
The only failure source expressible in the pure model is the calculator's
`throw` on an unsupported `scheduleType`; note the source emits the trigger
*before* calling the calculator, so a due record that then throws has
already emitted. -/
def processSchedule (currentTime : JSDate) (s : FileSchedule) :
    List TriggerEvent × Option FileSchedule :=
  if s.status ≠ "active" then ([], none)
  else if isDue currentTime s then
    match calculateNextRun s.scheduleType s.config s.timezone currentTime with
    | .ok nextRun => ([mkEvent s], some (dispatchUpdate currentTime s nextRun))
    | .error e => ([mkEvent s], some (quarantine currentTime s e))
  else ([], none)

/-- `state.set("file_schedules", r.scheduleId, r)`: overwrite the record
under its key, inserting if absent. -/
def applyWrite (store : List FileSchedule) (r : FileSchedule) : List FileSchedule :=
  if store.any (fun s => s.scheduleId == r.scheduleId) then
    store.map (fun s => if s.scheduleId == r.scheduleId then r else s)
  else store ++ [r]

/-- Apply an optional write. -/
def applyWriteOpt (store : List FileSchedule) (w : Option FileSchedule) :
    List FileSchedule :=
  match w with
  | some r => applyWrite store r
  | none => store

/-- The checker's loop over the loaded snapshot `schedules`, threading the
backing store through the per-record writes: returns the emitted events (in
order) and the final store. -/
def dispatchPass (currentTime : JSDate) :
    List FileSchedule → List FileSchedule → List TriggerEvent × List FileSchedule
  | [], store => ([], store)
  | s :: rest, store =>
      let pr := processSchedule currentTime s
      let res := dispatchPass currentTime rest (applyWriteOpt store pr.2)
      (pr.1 ++ res.1, res.2)

/-- `30 * 24 * 60 * 60 * 1000`. -/
def retentionMs : Int := 30 * 24 * 60 * 60 * 1000

/-- The per-record keep-condition of `cleanupOldSchedules`: delete exactly
the failed records whose (present, parseable) `updatedAt` is strictly older
than `thirtyDaysAgo = currentTime - 30 days`. -/
def keepInCleanup (currentTime : JSDate) (s : FileSchedule) : Bool :=
  !(s.status == "failed" &&
    (match s.updatedAt with
     | some u => decide (ts u < ts currentTime - retentionMs)
     | none => false))

/-- `cleanupOldSchedules`: reload the set and delete the stale failed
records. -/
def cleanupOldSchedules (currentTime : JSDate) (store : List FileSchedule) :
    List FileSchedule :=
  store.filter (keepInCleanup currentTime)

/-- The `ScheduleChecker` handler.  `load` is the outcome of
`state.getGroup("file_schedules")`: `Except.error` models the storage read
throwing (caught by the handler's outer `try`/`catch`, which logs and
returns), and a `null`/absent group is collapsed into `[]` (the source
treats them identically).  `pruneOk = false` models `cleanupOldSchedules`
failing at its own leading storage read, whose error its `catch` logs and
swallows.  Returns the emitted events and the final store. -/
def scheduleChecker (load : Except String (List FileSchedule)) (pruneOk : Bool)
    (currentTime : JSDate) (store : List FileSchedule) :
    List TriggerEvent × List FileSchedule :=
  match load with
  | .error _ => ([], store)
  | .ok allSchedules =>
      if allSchedules.length = 0 then ([], store)
      else
        let res := dispatchPass currentTime allSchedules store
        (res.1, if pruneOk then cleanupOldSchedules currentTime res.2 else res.2)

/-! ## Handler lemmas -/

/-- The dispatch pass is per-record: each snapshot record's events and write
depend only on that record, events concatenate in order, and the final
store is the original with every write applied in order. -/
theorem dispatchPass_eq (currentTime : JSDate) (schedules store : List FileSchedule) :
    dispatchPass currentTime schedules store =
      (schedules.flatMap (fun s => (processSchedule currentTime s).1),
        (schedules.map (fun s => (processSchedule currentTime s).2)).foldl
          applyWriteOpt store) := by
  induction schedules generalizing store with
  | nil => rfl
  | cons s rest ih =>
      show (_, _) = _
      rw [ih (applyWriteOpt store (processSchedule currentTime s).2)]
      rfl

theorem processSchedule_inactive {s : FileSchedule} (h : s.status ≠ "active")
    (currentTime : JSDate) : processSchedule currentTime s = ([], none) := by
  unfold processSchedule
  rw [if_pos h]

theorem processSchedule_notDue {s : FileSchedule} (h : isDue currentTime s = false)
    (ha : s.status = "active") : processSchedule currentTime s = ([], none) := by
  unfold processSchedule
  rw [if_neg (by simp [ha]), if_neg (by simp [h])]

theorem processSchedule_due_ok {s : FileSchedule} {v : JSDate}
    (ha : s.status = "active") (h : isDue currentTime s = true)
    (hc : calculateNextRun s.scheduleType s.config s.timezone currentTime = .ok v) :
    processSchedule currentTime s =
      ([mkEvent s], some (dispatchUpdate currentTime s v)) := by
  unfold processSchedule
  rw [if_neg (by simp [ha]), if_pos (by simp [h]), hc]

theorem processSchedule_due_error {s : FileSchedule} {e : String}
    (ha : s.status = "active") (h : isDue currentTime s = true)
    (hc : calculateNextRun s.scheduleType s.config s.timezone currentTime = .error e) :
    processSchedule currentTime s = ([mkEvent s], some (quarantine currentTime s e)) := by
  unfold processSchedule
  rw [if_neg (by simp [ha]), if_pos (by simp [h]), hc]

/-! ## Ambient state for calculator calls

The source's `calculateNextRun(scheduleType, config, timezone)` takes no
reference instant: it reads `const now = new Date()` from the global clock
at each call.  `World` is the ambient state visible to such a call — the
clock, the schedule store, the emitted-events log — and
`calculateNextRunCall` is one invocation in that world. -/
structure World where
  clockNow : JSDate
  store : List FileSchedule
  events : List TriggerEvent
deriving DecidableEq, Repr

/-- One invocation of the source's `calculateNextRun` in world `w`: the
internal `new Date()` reads `w.clockNow`; nothing in the world is written. -/
def calculateNextRunCall (w : World) (scheduleType : String) (config : ScheduleConfig)
    (timezone : String) : World × Except String JSDate :=
  (w, calculateNextRun scheduleType config timezone w.clockNow)

/-! ## Iterated polling of one record (for the monotonicity property) -/

/-- The stored state of one record after the checker has handled it at
instant `t` (the record itself when no write happened). -/
def pollIter (t : JSDate) (r : FileSchedule) : FileSchedule :=
  match (processSchedule t r).2 with
  | some u => u
  | none => r

/-- The stored state of one record after the checker has run at each
instant of `nows` in order. -/
def pollMany : FileSchedule → List JSDate → FileSchedule
  | r, [] => r
  | r, t :: rest => pollMany (pollIter t r) rest

/-- `nows` is a sequence of valid instants at each of which the (current)
record is due: each instant is at or after the then-stored `nextRun`. -/
def DueChain : FileSchedule → List JSDate → Prop
  | _, [] => True
  | r, t :: rest =>
      validT t ∧ (∃ u, r.nextRun = some u ∧ ts u ≤ ts t) ∧ DueChain (pollIter t r) rest

/-- The successive stored `nextRun` instants along a polling sequence. -/
def nextRuns : FileSchedule → List JSDate → List JSDate
  | _, [] => []
  | r, t :: rest =>
      match (pollIter t r).nextRun with
      | some v => v :: nextRuns (pollIter t r) rest
      | none => nextRuns (pollIter t r) rest

theorem dispatchUpdate_fields (t : JSDate) (r : FileSchedule) (v : JSDate) :
    (dispatchUpdate t r v).status = r.status ∧
    (dispatchUpdate t r v).scheduleType = r.scheduleType ∧
    (dispatchUpdate t r v).config = r.config ∧
    (dispatchUpdate t r v).timezone = r.timezone ∧
    (dispatchUpdate t r v).nextRun = some v ∧
    (dispatchUpdate t r v).lastRun = some t ∧
    (dispatchUpdate t r v).updatedAt = some t ∧
    (dispatchUpdate t r v).executionCount = r.executionCount + 1 :=
  ⟨rfl, rfl, rfl, rfl, rfl, rfl, rfl, rfl⟩

/-- One due poll of a well-configured active record dispatches: the record
becomes the dispatch update for a strictly later computed `nextRun`. -/
theorem pollIter_due {r : FileSchedule} (ha : r.status = "active")
    (hst : r.scheduleType ∈ scheduleTypes) (hcfg : validConfig r.config)
    {t : JSDate} (hv : validT t) {u : JSDate} (hnr : r.nextRun = some u)
    (hle : ts u ≤ ts t) :
    ∃ v, pollIter t r = dispatchUpdate t r v ∧ ts t < ts v := by
  obtain ⟨v, hok, hgt⟩ := calculateNextRun_ok_gt hst hcfg r.timezone hv
  have hdue : isDue t r = true := by
    unfold isDue
    rw [hnr]
    simpa using hle
  refine ⟨v, ?_, hgt⟩
  unfold pollIter
  rw [processSchedule_due_ok ha hdue hok]

/-- Any write the per-record step makes is either the dispatch update or
the quarantine record. -/
theorem processSchedule_write_cases (t : JSDate) (r : FileSchedule) {u : FileSchedule}
    (hw : (processSchedule t r).2 = some u) :
    (∃ v, u = dispatchUpdate t r v) ∨ (∃ e, u = quarantine t r e) := by
  unfold processSchedule at hw
  split at hw
  · simp at hw
  · split at hw
    · split at hw
      · left
        exact ⟨_, (Option.some.inj hw).symm⟩
      · right
        exact ⟨_, (Option.some.inj hw).symm⟩
    · simp at hw

/-- A poll never decreases a record's `executionCount`. -/
theorem pollIter_executionCount_mono (t : JSDate) (r : FileSchedule) :
    r.executionCount ≤ (pollIter t r).executionCount := by
  unfold pollIter
  rcases hw : (processSchedule t r).2 with _ | u
  · exact Nat.le_refl _
  · rcases processSchedule_write_cases t r hw with ⟨v, rfl⟩ | ⟨e, rfl⟩
    · exact Nat.le_succ _
    · exact Nat.le_refl _

/-- Aggregate facts over a due polling sequence: the execution count grows
by exactly the number of polls, every step stores a `nextRun`, and the
stored `nextRun` instants are strictly increasing from the initial one. -/
theorem pollMany_spec (r : FileSchedule) (nows : List JSDate)
    (ha : r.status = "active") (hst : r.scheduleType ∈ scheduleTypes)
    (hcfg : validConfig r.config) (hchain : DueChain r nows) :
    (pollMany r nows).executionCount = r.executionCount + nows.length ∧
    (nextRuns r nows).length = nows.length ∧
    (∀ u, r.nextRun = some u →
      List.Chain' (fun a b => ts a < ts b) (u :: nextRuns r nows)) := by
  induction nows generalizing r with
  | nil =>
      exact ⟨rfl, rfl, fun u _ => List.chain'_singleton u⟩
  | cons t rest ih =>
      obtain ⟨hv, ⟨u0, hnr, hle⟩, hchain'⟩ := hchain
      obtain ⟨v, hiter, hgt⟩ := pollIter_due ha hst hcfg hv hnr hle
      have hr' := dispatchUpdate_fields t r v
      have ihr := ih (dispatchUpdate t r v) (by rw [hr'.1]; exact ha)
        (by rw [hr'.2.1]; exact hst) (by rw [hr'.2.2.1]; exact hcfg)
        (by rw [← hiter]; exact hchain')
      refine ⟨?_, ?_, ?_⟩
      · show (pollMany (pollIter t r) rest).executionCount = _
        rw [hiter, ihr.1, hr'.2.2.2.2.2.2.2]
        simp only [List.length_cons]
        omega
      · show (nextRuns r (t :: rest)).length = _
        unfold nextRuns
        rw [hiter, hr'.2.2.2.2.1]
        simp only [List.length_cons]
        rw [ihr.2.1]
      · intro u hu
        rw [hu] at hnr
        obtain rfl : u = u0 := by injection hnr
        show List.Chain' _ (u :: nextRuns r (t :: rest))
        unfold nextRuns
        rw [hiter, hr'.2.2.2.2.1]
        rw [List.chain'_cons]
        refine ⟨?_, ihr.2.2 v hr'.2.2.2.2.1⟩
        change ts _ < ts _
        omega

instance instDecEqExceptSJ {α β : Type} [DecidableEq α] [DecidableEq β] :
    DecidableEq (Except α β) := fun a b =>
  match a, b with
  | .ok x, .ok y =>
      if h : x = y then .isTrue (congrArg Except.ok h)
      else .isFalse (fun hc => h (Except.ok.inj hc))
  | .ok _, .error _ => .isFalse (fun hc => Except.noConfusion hc)
  | .error _, .ok _ => .isFalse (fun hc => Except.noConfusion hc)
  | .error x, .error y =>
      if h : x = y then .isTrue (congrArg Except.error h)
      else .isFalse (fun hc => h (Except.error.inj hc))

/-- A record the pass dispatches for: `status == "active"` and due. -/
def dueActive (currentTime : JSDate) (s : FileSchedule) : Bool :=
  s.status == "active" && isDue currentTime s

/-- The events one record contributes to a pass. -/
theorem processSchedule_events (currentTime : JSDate) (s : FileSchedule) :
    (processSchedule currentTime s).1 =
      if dueActive currentTime s then [mkEvent s] else [] := by
  unfold processSchedule dueActive
  by_cases ha : s.status = "active"
  · rw [if_neg (by simp [ha])]
    by_cases hd : isDue currentTime s
    · rw [if_pos hd]
      rcases calculateNextRun s.scheduleType s.config s.timezone currentTime with v | e
      all_goals rw [if_pos (by simp [ha, hd])]
    · rw [if_neg (by simp [hd]), if_neg (by simp [hd])]
  · rw [if_pos (by simp [ha]), if_neg (by simp [ha])]

theorem flatMap_singleton_filter {α β : Type} (p : α → Bool) (f : α → β) :
    ∀ l : List α, (l.flatMap fun x => if p x then [f x] else []) = (l.filter p).map f := by
  intro l
  induction l with
  | nil => rfl
  | cons x xs ih =>
      by_cases hx : p x
      · simp only [List.flatMap_cons, List.filter_cons, hx, if_true, List.map_cons]
        rw [ih]
        rfl
      · simp only [List.flatMap_cons, List.filter_cons, hx, if_false, Bool.false_eq_true,
          List.map_cons]
        rw [ih]
        simp

/-- The pruning pass's deletion condition as a proposition. -/
def staleFailed (currentTime : JSDate) (s : FileSchedule) : Prop :=
  s.status = "failed" ∧ ∃ u, s.updatedAt = some u ∧ ts u < ts currentTime - retentionMs

instance (currentTime : JSDate) (s : FileSchedule) : Decidable (staleFailed currentTime s) :=
  decidable_of_iff (s.status = "failed" ∧
      (Option.any (fun u => decide (ts u < ts currentTime - retentionMs)) s.updatedAt)
        = true) (by
    unfold staleFailed
    rcases s.updatedAt with _ | u <;> simp [Option.any])

theorem keepInCleanup_iff (currentTime : JSDate) (s : FileSchedule) :
    keepInCleanup currentTime s = true ↔ ¬ staleFailed currentTime s := by
  unfold keepInCleanup staleFailed
  rcases s.updatedAt with _ | u
  · simp
  · simp
    tauto

/-! ## Concrete records for the witnesses (Monday 2025-01-06 is a Monday) -/

def demoConfig : ScheduleConfig := ⟨some "monday", some "09:00", none, none⟩

/-- Monday 2025-01-06, 10:00. -/
def demoNow : JSDate := ⟨⟨2025, 0, 6⟩, 10, 0, 0, 0⟩

/-- An active daily schedule due at `demoNow` (stored nextRun 09:00). -/
def demoDue : FileSchedule :=
  ⟨"schedule-c1-1", "c1", "c1@example.com", "daily", some ⟨⟨2025, 0, 6⟩, 9, 0, 0, 0⟩,
    "UTC", "products", "excel", "active", demoConfig, none, none, 0, none,
    some ⟨⟨2025, 0, 5⟩, 9, 0, 0, 0⟩⟩

/-- An active schedule not yet due at `demoNow`. -/
def demoNotDue : FileSchedule :=
  { demoDue with
    scheduleId := "schedule-c2-1",
    customerId := "c2",
    nextRun := some ⟨⟨2025, 0, 7⟩, 9, 0, 0, 0⟩ }

/-- An active, due schedule with an unsupported `scheduleType` stored. -/
def demoBad : FileSchedule :=
  { demoDue with
    scheduleId := "schedule-c3-1",
    customerId := "c3",
    scheduleType := "fortnightly" }

/-- An active record whose stored `nextRun` string does not parse. -/
def demoInvalidNextRun : FileSchedule :=
  { demoDue with
    scheduleId := "schedule-c4-1",
    customerId := "c4",
    nextRun := none }

/-- A failed record whose `updatedAt` is 31 days before `demoNow`. -/
def demoStale : FileSchedule :=
  { demoDue with
    scheduleId := "schedule-old",
    status := "failed",
    lastError := some "boom",
    updatedAt := some ⟨⟨2024, 11, 6⟩, 10, 0, 0, 0⟩ }

/-- A failed record whose `updatedAt` is 29 days before `demoNow`. -/
def demoFresh : FileSchedule :=
  { demoDue with
    scheduleId := "schedule-new",
    status := "failed",
    lastError := some "boom",
    updatedAt := some ⟨⟨2024, 11, 8⟩, 10, 0, 0, 0⟩ }

/-! ## Claim theorems -/

/-- C1: for every schedule type among the five variants and every valid
config, `calculateNextRun` returns an instant strictly greater than `now`
whenever the naive same-day/same-slot target instant is less than or equal
to `now` (equality counts as already passed and rolls forward), and returns
exactly that target instant when it is still strictly in the future. -/
theorem C1_calculator_rolls_strictly_forward (st : String) (hst : st ∈ scheduleTypes)
    (c : ScheduleConfig) (hc : validConfig c) (tz : String) (now : JSDate)
    (hv : validT now) :
    ∃ r, calculateNextRun st c tz now = .ok r ∧
      (ts (naiveTarget st c now) ≤ ts now → ts now < ts r) ∧
      (ts now < ts (naiveTarget st c now) → r = naiveTarget st c now) := by
  have hdw : 0 ≤ dayIndex (orDefault c.dayOfWeek "monday") ∧
      dayIndex (orDefault c.dayOfWeek "monday") < 7 := hc.2
  simp only [scheduleTypes, List.mem_cons, List.not_mem_nil, or_false] at hst
  rcases hst with rfl | rfl | rfl | rfl | rfl
  · refine ⟨_, calculateNextRun_daily c tz now, ?_, ?_⟩
    · intro _
      exact calculateDailyNextRun_gt hv _
    · intro hgt
      exact calculateDailyNextRun_keep _ hgt
  · refine ⟨_, calculateNextRun_weekly c tz now, ?_, ?_⟩
    · intro _
      exact calculateWeeklyNextRun_gt hv hdw _
    · intro hgt
      rw [calculateWeeklyNextRun_eq hv hdw _]
      by_cases hcond : weeklyOffset (orDefault c.dayOfWeek "monday") now = 0 ∧
          ts (now.setHours (parseTime (orDefault c.time "09:00")).1
            (parseTime (orDefault c.time "09:00")).2) ≤ ts now
      · exfalso
        obtain ⟨hk0, hpass⟩ := hcond
        have hnv : naiveTarget "weekly" c now =
            ⟨addDays (weeklyOffset (orDefault c.dayOfWeek "monday") now) now.date,
              (parseTime (orDefault c.time "09:00")).1,
              (parseTime (orDefault c.time "09:00")).2, 0, 0⟩ := rfl
        rw [hnv, hk0] at hgt
        rw [setHours_def] at hpass
        rw [show addDays 0 now.date = now.date from rfl] at hgt
        omega
      · rw [if_neg hcond]
        rfl
  · refine ⟨_, calculateNextRun_mfw c tz now, ?_, ?_⟩
    · intro _
      exact calculateMonthlyFirstWeekdayNextRun_gt hv hdw _
    · intro hgt
      exact calculateMonthlyFirstWeekdayNextRun_keep _ _ hgt
  · refine ⟨_, calculateNextRun_mlw c tz now, ?_, ?_⟩
    · intro _
      exact calculateMonthlyLastWeekdayNextRun_gt hv hdw _
    · intro hgt
      exact calculateMonthlyLastWeekdayNextRun_keep _ _ hgt
  · refine ⟨_, calculateNextRun_custom c tz now, ?_, ?_⟩
    · intro _
      exact calculateDailyNextRun_gt hv _
    · intro hgt
      exact calculateDailyNextRun_keep _ hgt

/-- Witness for C1: a daily schedule at 10:00 with slot 09:00 already
passed, at a concrete Monday. -/
theorem C1_calculator_rolls_strictly_forward_witness :
    ∃ r, calculateNextRun "daily" demoConfig "UTC" demoNow = .ok r ∧
      (ts (naiveTarget "daily" demoConfig demoNow) ≤ ts demoNow →
        ts demoNow < ts r) ∧
      (ts demoNow < ts (naiveTarget "daily" demoConfig demoNow) →
        r = naiveTarget "daily" demoConfig demoNow) :=
  C1_calculator_rolls_strictly_forward "daily" (by decide) demoConfig (by decide) "UTC"
    demoNow (by decide)

/-- C8: for a weekly schedule with a real weekday `dayOfWeek`: if today is
the target weekday and today's slot is still strictly in the future, the
result is today at the configured time; otherwise it is the next calendar
date (1 to 7 days ahead, exactly 7 when today's slot has passed) whose
weekday matches, at the configured time — `k` is minimal among matching
offsets. -/
theorem C8_weekly_next_occurrence (dw time : String)
    (hdw : 0 ≤ dayIndex dw ∧ dayIndex dw < 7) (now : JSDate) (hv : validT now) :
    ((getDay now.date : Int) = dayIndex dw ∧
        ts now < ts (now.setHours (parseTime time).1 (parseTime time).2) →
      calculateWeeklyNextRun now dw time =
        now.setHours (parseTime time).1 (parseTime time).2) ∧
    (¬((getDay now.date : Int) = dayIndex dw ∧
        ts now < ts (now.setHours (parseTime time).1 (parseTime time).2)) →
      ∃ k : Nat, 1 ≤ k ∧ k ≤ 7 ∧
        calculateWeeklyNextRun now dw time =
          ⟨addDays k now.date, (parseTime time).1, (parseTime time).2, 0, 0⟩ ∧
        (getDay (addDays k now.date) : Int) = dayIndex dw ∧
        (∀ i, 1 ≤ i → i < k → (getDay (addDays i now.date) : Int) ≠ dayIndex dw)) := by
  have hg := getDay_lt now.date
  have hadd : ∀ k : Nat, getDay (addDays k now.date) = (getDay now.date + k) % 7 :=
    fun k => getDay_addDays k hv.1
  rw [calculateWeeklyNextRun_eq hv hdw time]
  constructor
  · rintro ⟨hwd, hfut⟩
    rw [if_neg (by rintro ⟨_, hpass⟩; omega)]
    have hk0 : weeklyOffset dw now = 0 := by
      unfold weeklyOffset
      omega
    rw [hk0]
    rfl
  · intro hnc
    by_cases hk0 : weeklyOffset dw now = 0
    · have hwd : (getDay now.date : Int) = dayIndex dw := by
        unfold weeklyOffset at hk0
        omega
      have hpass : ts (now.setHours (parseTime time).1 (parseTime time).2) ≤ ts now := by
        by_contra hlt
        exact hnc ⟨hwd, by omega⟩
      rw [if_pos ⟨hk0, hpass⟩]
      refine ⟨7, by omega, by omega, rfl, ?_, ?_⟩
      · rw [hadd 7]
        omega
      · intro i h1 h7
        rw [hadd i]
        omega
    · rw [if_neg (by rintro ⟨h, _⟩; exact hk0 h)]
      have hko : weeklyOffset dw now = ((dayIndex dw - (getDay now.date : Int)) % 7).toNat :=
        rfl
      refine ⟨weeklyOffset dw now, by omega, ?_, rfl, ?_, ?_⟩
      · rw [hko]
        omega
      · rw [hadd (weeklyOffset dw now), hko]
        omega
      · intro i h1 hik
        rw [hadd i]
        rw [hko] at hik
        omega

/-- Witness for C8: Monday 09:30 with a Monday 09:00 weekly config (the
spec's scenario 4). -/
theorem C8_weekly_next_occurrence_witness :
    ((getDay (⟨⟨2025, 0, 6⟩, 9, 30, 0, 0⟩ : JSDate).date : Int) = dayIndex "monday" ∧
        ts (⟨⟨2025, 0, 6⟩, 9, 30, 0, 0⟩ : JSDate) <
          ts ((⟨⟨2025, 0, 6⟩, 9, 30, 0, 0⟩ : JSDate).setHours (parseTime "09:00").1
            (parseTime "09:00").2) →
      calculateWeeklyNextRun ⟨⟨2025, 0, 6⟩, 9, 30, 0, 0⟩ "monday" "09:00" =
        (⟨⟨2025, 0, 6⟩, 9, 30, 0, 0⟩ : JSDate).setHours (parseTime "09:00").1
          (parseTime "09:00").2) ∧
    (¬((getDay (⟨⟨2025, 0, 6⟩, 9, 30, 0, 0⟩ : JSDate).date : Int) = dayIndex "monday" ∧
        ts (⟨⟨2025, 0, 6⟩, 9, 30, 0, 0⟩ : JSDate) <
          ts ((⟨⟨2025, 0, 6⟩, 9, 30, 0, 0⟩ : JSDate).setHours (parseTime "09:00").1
            (parseTime "09:00").2)) →
      ∃ k : Nat, 1 ≤ k ∧ k ≤ 7 ∧
        calculateWeeklyNextRun ⟨⟨2025, 0, 6⟩, 9, 30, 0, 0⟩ "monday" "09:00" =
          ⟨addDays k (⟨⟨2025, 0, 6⟩, 9, 30, 0, 0⟩ : JSDate).date,
            (parseTime "09:00").1, (parseTime "09:00").2, 0, 0⟩ ∧
        (getDay (addDays k (⟨⟨2025, 0, 6⟩, 9, 30, 0, 0⟩ : JSDate).date) : Int) =
          dayIndex "monday" ∧
        (∀ i, 1 ≤ i → i < k →
          (getDay (addDays i (⟨⟨2025, 0, 6⟩, 9, 30, 0, 0⟩ : JSDate).date) : Int) ≠
            dayIndex "monday")) :=
  C8_weekly_next_occurrence "monday" "09:00" (by decide) ⟨⟨2025, 0, 6⟩, 9, 30, 0, 0⟩
    (by decide)

/-- C9: for `scheduleType` `custom`, `calculateNextRun` returns exactly the
same instant as for `daily` with the same config, timezone and reference
instant — the `custom` branch substitutes the daily algorithm instead of
parsing `config.cronExpression`. -/
theorem C9_custom_equals_daily (c : ScheduleConfig) (tz : String) (now : JSDate) :
    calculateNextRun "custom" c tz now = calculateNextRun "daily" c tz now := rfl

/-- Any write the per-record step makes, together with the calculator
outcome that produced it. -/
theorem processSchedule_write_spec (t : JSDate) (r : FileSchedule) {u : FileSchedule}
    (hw : (processSchedule t r).2 = some u) :
    (∃ v, calculateNextRun r.scheduleType r.config r.timezone t = .ok v ∧
      u = dispatchUpdate t r v) ∨
    (∃ e, calculateNextRun r.scheduleType r.config r.timezone t = .error e ∧
      u = quarantine t r e) := by
  unfold processSchedule at hw
  cases hcalc : calculateNextRun r.scheduleType r.config r.timezone t with
  | ok v =>
      rw [hcalc] at hw
      split at hw
      · simp at hw
      · split at hw
        · dsimp only at hw
          exact Or.inl ⟨v, rfl, (Option.some.inj hw).symm⟩
        · simp at hw
  | error e =>
      rw [hcalc] at hw
      split at hw
      · simp at hw
      · split at hw
        · dsimp only at hw
          exact Or.inr ⟨e, rfl, (Option.some.inj hw).symm⟩
        · simp at hw

/-- C2: during one poll invocation, the error a record raises (in the pure
model, the calculator's throw on an unsupported stored `scheduleType`) is
caught at per-record granularity: that record alone is rewritten to
`status = "failed"` with `lastError` populated and `updatedAt` set to the
current instant, the pass continues through every remaining record with
each record's outcome depending only on that record, and a record whose
calculator call succeeds is never marked failed. -/
theorem C2_per_record_error_isolation (currentTime : JSDate) (b : FileSchedule)
    (e : String) (ha : b.status = "active") (hdue : isDue currentTime b = true)
    (herr : calculateNextRun b.scheduleType b.config b.timezone currentTime = .error e)
    (pre post store : List FileSchedule) :
    processSchedule currentTime b =
      ([mkEvent b], some { b with
        status := "failed",
        lastError := some e,
        updatedAt := some currentTime }) ∧
    dispatchPass currentTime (pre ++ b :: post) store =
      ((pre ++ b :: post).flatMap (fun s => (processSchedule currentTime s).1),
        ((pre ++ b :: post).map (fun s => (processSchedule currentTime s).2)).foldl
          applyWriteOpt store) ∧
    (∀ (s : FileSchedule) (v : JSDate) (u : FileSchedule),
      calculateNextRun s.scheduleType s.config s.timezone currentTime = .ok v →
      (processSchedule currentTime s).2 = some u →
      u.status = s.status ∧ u.lastError = s.lastError) := by
  refine ⟨processSchedule_due_error ha hdue herr,
    dispatchPass_eq currentTime (pre ++ b :: post) store, ?_⟩
  intro s v u hok hw
  rcases processSchedule_write_spec currentTime s hw with ⟨v', _, rfl⟩ | ⟨e', hcalc, rfl⟩
  · exact ⟨rfl, rfl⟩
  · rw [hok] at hcalc
    exact absurd hcalc (by simp)

/-- Witness for C2: a three-record batch — due, due-with-unsupported-type,
not-due — where only the bad record is quarantined and the pass is the
per-record fold. -/
theorem C2_per_record_error_isolation_witness :
    processSchedule demoNow demoBad =
      ([mkEvent demoBad], some { demoBad with
        status := "failed",
        lastError := some "Unsupported schedule type: fortnightly",
        updatedAt := some demoNow }) ∧
    dispatchPass demoNow ([demoDue] ++ demoBad :: [demoNotDue]) [] =
      (([demoDue] ++ demoBad :: [demoNotDue]).flatMap
          (fun s => (processSchedule demoNow s).1),
        (([demoDue] ++ demoBad :: [demoNotDue]).map
          (fun s => (processSchedule demoNow s).2)).foldl applyWriteOpt []) ∧
    (dispatchUpdate demoNow demoDue ⟨⟨2025, 0, 7⟩, 9, 0, 0, 0⟩).status =
        demoDue.status ∧
    (dispatchUpdate demoNow demoDue ⟨⟨2025, 0, 7⟩, 9, 0, 0, 0⟩).lastError =
        demoDue.lastError := by
  have h := C2_per_record_error_isolation demoNow demoBad
    "Unsupported schedule type: fortnightly" (by decide) (by decide) (by decide)
    [demoDue] [demoNotDue] []
  refine ⟨h.1, h.2.1, ?_, ?_⟩
  · exact (h.2.2 demoDue ⟨⟨2025, 0, 7⟩, 9, 0, 0, 0⟩
      (dispatchUpdate demoNow demoDue ⟨⟨2025, 0, 7⟩, 9, 0, 0, 0⟩) (by decide) (by decide)).1
  · exact (h.2.2 demoDue ⟨⟨2025, 0, 7⟩, 9, 0, 0, 0⟩
      (dispatchUpdate demoNow demoDue ⟨⟨2025, 0, 7⟩, 9, 0, 0, 0⟩) (by decide) (by decide)).2

/-- C3: in a poll pass, a record yields exactly one trigger event (carrying
scheduleId, customerId, customerEmail, fileType, format) and exactly one
write under its own key if and only if it is active and due — the pass's
event list is exactly one event per active-and-due record, however overdue —
and a non-active or not-due record yields no event and no write. -/
theorem C3_exactly_one_trigger_per_due_record (currentTime : JSDate)
    (schedules store : List FileSchedule) :
    (dispatchPass currentTime schedules store).1 =
      (schedules.filter (dueActive currentTime)).map mkEvent ∧
    (∀ s, dueActive currentTime s = false → processSchedule currentTime s = ([], none)) ∧
    (∀ s, dueActive currentTime s = true →
      ∃ r, processSchedule currentTime s = ([mkEvent s], some r) ∧
        r.scheduleId = s.scheduleId) := by
  refine ⟨?_, ?_, ?_⟩
  · rw [dispatchPass_eq]
    dsimp only
    have hfun : (fun s => (processSchedule currentTime s).1) =
        fun s => if dueActive currentTime s then [mkEvent s] else [] :=
      funext (processSchedule_events currentTime)
    rw [hfun]
    exact flatMap_singleton_filter _ _ schedules
  · intro s hfalse
    by_cases ha : s.status = "active"
    · refine processSchedule_notDue ?_ ha
      unfold dueActive at hfalse
      simp [ha] at hfalse
      exact hfalse
    · exact processSchedule_inactive ha currentTime
  · intro s htrue
    unfold dueActive at htrue
    simp only [Bool.and_eq_true, beq_iff_eq] at htrue
    obtain ⟨ha, hd⟩ := htrue
    cases hcalc : calculateNextRun s.scheduleType s.config s.timezone currentTime with
    | ok v =>
        exact ⟨dispatchUpdate currentTime s v,
          processSchedule_due_ok ha hd hcalc, rfl⟩
    | error e =>
        exact ⟨quarantine currentTime s e,
          processSchedule_due_error ha hd hcalc, rfl⟩

/-- Witness for C3: a two-record pass — one due (one event, one write under
its own key), one not due (no event, no write). -/
theorem C3_exactly_one_trigger_per_due_record_witness :
    (dispatchPass demoNow [demoDue, demoNotDue] [demoDue, demoNotDue]).1 =
      ([demoDue, demoNotDue].filter (dueActive demoNow)).map mkEvent ∧
    processSchedule demoNow demoNotDue = ([], none) ∧
    ∃ r, processSchedule demoNow demoDue = ([mkEvent demoDue], some r) ∧
      r.scheduleId = demoDue.scheduleId := by
  have h := C3_exactly_one_trigger_per_due_record demoNow [demoDue, demoNotDue]
    [demoDue, demoNotDue]
  exact ⟨h.1, h.2.1 demoNotDue (by decide), h.2.2 demoDue (by decide)⟩

/-- C4 (amended): the source's `calculateNextRun(scheduleType, config,
timezone)` samples `now` from the global clock internally rather than
taking it as a parameter; modelling that read as part of the call's world,
the call is deterministic and side-effect-free — it leaves the world
unchanged and its result depends on nothing besides (scheduleType, config,
timezone) and the clock instant, so two calls under the same clock reading
return the same instant. -/
theorem C4_call_pure_given_clock (w w' : World) (scheduleType : String)
    (config : ScheduleConfig) (timezone : String) (h : w.clockNow = w'.clockNow) :
    (calculateNextRunCall w scheduleType config timezone).1 = w ∧
    (calculateNextRunCall w scheduleType config timezone).2 =
      (calculateNextRunCall w' scheduleType config timezone).2 := by
  refine ⟨rfl, ?_⟩
  unfold calculateNextRunCall
  rw [h]

/-- Witness for C4's amended theorem: two worlds with the same clock but
different stores and event logs give the same result, and the call writes
nothing. -/
theorem C4_call_pure_given_clock_witness :
    (calculateNextRunCall ⟨demoNow, [demoDue], []⟩ "daily" demoConfig "UTC").1 =
      ⟨demoNow, [demoDue], []⟩ ∧
    (calculateNextRunCall ⟨demoNow, [demoDue], []⟩ "daily" demoConfig "UTC").2 =
      (calculateNextRunCall ⟨demoNow, [], [mkEvent demoDue]⟩ "daily" demoConfig "UTC").2 :=
  C4_call_pure_given_clock ⟨demoNow, [demoDue], []⟩ ⟨demoNow, [], [mkEvent demoDue]⟩
    "daily" demoConfig "UTC" rfl

/-- C4 counterexample: two invocations with identical declared arguments
(scheduleType, config, timezone) but different ambient clock instants
return different instants, so the source's `calculateNextRun` is not a
function of its declared arguments alone — it reads the global clock
(`const now = new Date()`) inside. -/
theorem C4_reads_global_clock_counterexample :
    (calculateNextRunCall ⟨⟨⟨2025, 0, 6⟩, 8, 0, 0, 0⟩, [], []⟩ "daily" demoConfig
        "UTC").2 ≠
      (calculateNextRunCall ⟨⟨⟨2025, 0, 6⟩, 10, 0, 0, 0⟩, [], []⟩ "daily" demoConfig
        "UTC").2 := by
  decide

/-- C5: polling one well-configured active schedule as due N times in
sequence increments `executionCount` by exactly one per dispatch (N in
total), sets `lastRun` and `updatedAt` to each invocation's instant, makes
each successive stored `nextRun` strictly greater than the previous one,
and `executionCount` never decreases under any poll. -/
theorem C5_monotonic_execution (r : FileSchedule) (nows : List JSDate)
    (ha : r.status = "active") (hst : r.scheduleType ∈ scheduleTypes)
    (hcfg : validConfig r.config) (hchain : DueChain r nows) :
    (pollMany r nows).executionCount = r.executionCount + nows.length ∧
    (∀ u, r.nextRun = some u →
      List.Chain' (fun a b => ts a < ts b) (u :: nextRuns r nows)) ∧
    (∀ (t : JSDate) (s : FileSchedule),
      s.executionCount ≤ (pollIter t s).executionCount) ∧
    (∀ (t : JSDate) (s : FileSchedule) (u : JSDate), s.status = "active" →
      s.scheduleType ∈ scheduleTypes → validConfig s.config → validT t →
      s.nextRun = some u → ts u ≤ ts t →
      ∃ v, pollIter t s = dispatchUpdate t s v ∧ ts t < ts v ∧
        (pollIter t s).lastRun = some t ∧ (pollIter t s).updatedAt = some t ∧
        (pollIter t s).executionCount = s.executionCount + 1) := by
  obtain ⟨hcount, _, hchainthm⟩ := pollMany_spec r nows ha hst hcfg hchain
  refine ⟨hcount, hchainthm, pollIter_executionCount_mono, ?_⟩
  intro t s u ha' hst' hcfg' hv' hnr' hle'
  obtain ⟨v, hiter, hgt⟩ := pollIter_due ha' hst' hcfg' hv' hnr' hle'
  refine ⟨v, hiter, hgt, ?_, ?_, ?_⟩ <;> rw [hiter] <;> rfl

/-- Witness for C5: the demo daily schedule polled as due twice. -/
theorem C5_monotonic_execution_witness :
    (pollMany demoDue [demoNow, ⟨⟨2025, 0, 7⟩, 9, 30, 0, 0⟩]).executionCount =
      demoDue.executionCount + 2 ∧
    List.Chain' (fun a b => ts a < ts b) ((⟨⟨2025, 0, 6⟩, 9, 0, 0, 0⟩ : JSDate) ::
      nextRuns demoDue [demoNow, ⟨⟨2025, 0, 7⟩, 9, 30, 0, 0⟩]) ∧
    demoNotDue.executionCount ≤ (pollIter demoNow demoNotDue).executionCount ∧
    (∃ v, pollIter demoNow demoDue = dispatchUpdate demoNow demoDue v ∧
      ts demoNow < ts v ∧ (pollIter demoNow demoDue).lastRun = some demoNow ∧
      (pollIter demoNow demoDue).updatedAt = some demoNow ∧
      (pollIter demoNow demoDue).executionCount = demoDue.executionCount + 1) := by
  have h := C5_monotonic_execution demoDue [demoNow, ⟨⟨2025, 0, 7⟩, 9, 30, 0, 0⟩]
    (by decide) (by decide) (by decide)
    ⟨by decide, ⟨⟨⟨2025, 0, 6⟩, 9, 0, 0, 0⟩, rfl, by decide⟩,
      by decide, ⟨⟨⟨2025, 0, 7⟩, 9, 0, 0, 0⟩, by decide, by decide⟩, trivial⟩
  exact ⟨h.1, h.2.1 ⟨⟨2025, 0, 6⟩, 9, 0, 0, 0⟩ rfl, h.2.2.1 demoNow demoNotDue,
    h.2.2.2 demoNow demoDue ⟨⟨2025, 0, 6⟩, 9, 0, 0, 0⟩ (by decide) (by decide)
      (by decide) (by decide) (by decide) (by decide)⟩

/-- C6: the pruning pass keeps a stored record if and only if it is not a
failed record whose `updatedAt` is strictly older than the 30-day retention
window; active or paused records are never deleted; and a pruning failure
leaves the invocation's emitted events unchanged (it never fails the
overall invocation). -/
theorem C6_pruning_exactly_stale_failed (currentTime : JSDate)
    (store : List FileSchedule) :
    (∀ s ∈ store, s ∈ cleanupOldSchedules currentTime store ↔
      ¬ staleFailed currentTime s) ∧
    (∀ s ∈ store, s.status = "active" ∨ s.status = "paused" →
      s ∈ cleanupOldSchedules currentTime store) ∧
    (∀ (load : Except String (List FileSchedule)) (pruneOk : Bool),
      (scheduleChecker load pruneOk currentTime store).1 =
        (scheduleChecker load true currentTime store).1) := by
  refine ⟨?_, ?_, ?_⟩
  · intro s hmem
    unfold cleanupOldSchedules
    rw [List.mem_filter]
    constructor
    · rintro ⟨_, hk⟩
      exact (keepInCleanup_iff currentTime s).mp hk
    · intro hns
      exact ⟨hmem, (keepInCleanup_iff currentTime s).mpr hns⟩
  · intro s hmem hsp
    unfold cleanupOldSchedules
    rw [List.mem_filter]
    refine ⟨hmem, (keepInCleanup_iff currentTime s).mpr ?_⟩
    rintro ⟨hfail, _⟩
    rcases hsp with h | h <;> rw [h] at hfail <;> exact absurd hfail (by decide)
  · intro load pruneOk
    rcases load with e | l
    · rfl
    · unfold scheduleChecker
      dsimp only
      by_cases hl : l.length = 0
      · rw [if_pos hl, if_pos hl]
      · rw [if_neg hl, if_neg hl]

/-- Witness for C6: at the demo instant, the failed record 31 days stale
is deleted, the failed record 29 days old is retained, and the active
record is retained. -/
theorem C6_pruning_exactly_stale_failed_witness :
    demoStale ∉ cleanupOldSchedules demoNow [demoStale, demoFresh, demoDue] ∧
    demoFresh ∈ cleanupOldSchedules demoNow [demoStale, demoFresh, demoDue] ∧
    demoDue ∈ cleanupOldSchedules demoNow [demoStale, demoFresh, demoDue] := by
  have h := C6_pruning_exactly_stale_failed demoNow [demoStale, demoFresh, demoDue]
  refine ⟨?_, ?_, ?_⟩
  · intro hmem
    exact absurd ((h.1 demoStale (by decide)).mp hmem) (by decide)
  · exact (h.1 demoFresh (by decide)).mpr (by decide)
  · exact h.2.1 demoDue (by decide) (Or.inl (by decide))

/-- C7: a failure loading the entire schedule set aborts the whole
invocation atomically — no trigger event is emitted and the store is left
untouched — and an empty (or absent, which the source treats identically)
loaded set is a no-op that returns normally. -/
theorem C7_load_failure_aborts_cleanly (currentTime : JSDate)
    (store : List FileSchedule) (pruneOk : Bool) :
    (∀ e : String, scheduleChecker (.error e) pruneOk currentTime store = ([], store)) ∧
    scheduleChecker (.ok []) pruneOk currentTime store = ([], store) :=
  ⟨fun _ => rfl, rfl⟩

/-- C10: an active record whose stored `nextRun` does not parse as a valid
timestamp is silently skipped by a poll: no trigger event, no write, no
`failed` marking. -/
theorem C10_invalid_nextRun_skipped (currentTime : JSDate) (s : FileSchedule)
    (ha : s.status = "active") (hbad : s.nextRun = none) :
    processSchedule currentTime s = ([], none) := by
  refine processSchedule_notDue ?_ ha
  unfold isDue
  rw [hbad]

/-- Witness for C10 at a concrete record with an unparseable `nextRun`. -/
theorem C10_invalid_nextRun_skipped_witness :
    processSchedule demoNow demoInvalidNextRun = ([], none) :=
  C10_invalid_nextRun_skipped demoNow demoInvalidNextRun (by decide) (by decide)

end DFS
